import Mathlib

/-!
# Verification of the `easy_fuser` inode namespace manager

This file is a shallow embedding, in Lean 4, of the core data structures and
operations of the `easy_fuser` repository:

* `src/inode_mapper.rs` — the `InodeMapper<T>` tree of inode records and
  per-parent child indices (`new`, `insert_child_unchecked`, `insert_child`,
  `insert_children`, `batch_insert`, `lookup`, `get`, `resolve`, `rename`,
  `remove`);
* `src/core/inode_mapping.rs` — the `ComponentsResolver` (an `InodeMapper`
  whose per-inode data is an atomic `u64` lookup refcount) and the
  `PathResolver` wrapping it (`lookup`, `forget`, `resolve_id`);
* `src/core/macros.rs` — the dispatcher macros `handle_fuse_reply_entry`
  (entry-producing operations) and `handle_dir_read` (readdir/readdirplus
  with the cursor store).

Modelling conventions:

* Rust `HashMap` is modelled as an association list with first-match lookup
  (`fmGet`), insert-replacing-the-key (`fmInsert`) and key erasure
  (`fmErase`).  Iteration order of a `HashMap` is unspecified in Rust, so
  the particular list order carries no meaning; all reasoning goes through
  `fmGet` and emptiness.
* `OsString` names are modelled as `String` (names are only compared for
  equality and concatenated into paths).
* Inode numbers (`u64`) are modelled as `Nat`; the monotone allocator
  `next_inode` only ever grows by one per fresh inode.
* The atomic `u64` refcount is modelled as a `Nat` together with wrapping
  arithmetic modulo `2^64` (`fetch_add` / `fetch_sub` wrap on `u64`).
* A Rust panic (`unwrap` / `expect` failing, the debug assertion in
  `remove`) is modelled by an `Option` result being `none`; recoverable
  errors keep their `Result` shape via `Except`.
* The recursive cascade in `remove` is modelled with explicit fuel
  (initialised to the size of the inode table, enough for any well-formed
  state); running out of fuel is also mapped to `none`.
-/

/-- Word size of the `u64` refcounts. -/
def U64W : Nat := 2 ^ 64

/-- Wrapping `u64` subtraction (`AtomicU64::fetch_sub` wraps around):
the new counter value after subtracting `n` from `c`, both taken mod `2^64`. -/
def wsub (c n : Nat) : Nat := (c + (U64W - n % U64W)) % U64W

/-- Wrapping `u64` increment (`AtomicU64::fetch_add(1)`). -/
def wadd1 (c : Nat) : Nat := (c + 1) % U64W

section FinMapDefs

variable {α : Type} {β : Type} [DecidableEq α]

/-- First-match lookup in an association list (models `HashMap::get`). -/
def fmGet : List (α × β) → α → Option β
  | [], _ => none
  | (k, v) :: t, a => if a = k then some v else fmGet t a

/-- Erase every binding of a key (models `HashMap::remove`; reachable
lists never bind a key twice, so this is exactly one removal there). -/
def fmErase : List (α × β) → α → List (α × β)
  | [], _ => []
  | (k, v) :: t, a => if k = a then fmErase t a else (k, v) :: fmErase t a

/-- Insert or replace a binding (models `HashMap::insert`). -/
def fmInsert (a : α) (b : β) (l : List (α × β)) : List (α × β) :=
  (a, b) :: fmErase l a

@[simp] theorem fmGet_nil (a : α) : fmGet ([] : List (α × β)) a = none := rfl

@[simp] theorem fmGet_fmErase (l : List (α × β)) (a k : α) :
    fmGet (fmErase l a) k = if k = a then none else fmGet l k := by
  induction l with
  | nil => simp [fmErase]
  | cons hd t ih =>
    obtain ⟨k', v⟩ := hd
    by_cases hk : k' = a
    · rw [show fmErase ((k', v) :: t) a = fmErase t a by simp [fmErase, hk]]
      rw [ih]
      by_cases hka : k = a
      · simp [hka]
      · have hkk : ¬k = k' := by rw [hk]; exact hka
        simp [fmGet, hka, hkk]
    · rw [show fmErase ((k', v) :: t) a = (k', v) :: fmErase t a by simp [fmErase, hk]]
      by_cases hkk : k = k'
      · simp [fmGet, hkk, hk]
      · simp [fmGet, hkk, ih]

@[simp] theorem fmGet_fmInsert (l : List (α × β)) (a k : α) (b : β) :
    fmGet (fmInsert a b l) k = if k = a then some b else fmGet l k := by
  by_cases hka : k = a <;> simp [fmInsert, fmGet, hka]

theorem fmInsert_ne_nil (a : α) (b : β) (l : List (α × β)) :
    fmInsert a b l ≠ [] := by simp [fmInsert]

end FinMapDefs

/-! ## The inode mapper (`src/inode_mapper.rs`) -/

/-- `ROOT_INO` from `src/core/inode_mapping.rs`. -/
def ROOT_INO : Nat := 1

/-- `ROOT_INODE` from `src/types/inode.rs` (an `Inode` wrapping `1`). -/
def ROOT_INODE : Nat := ROOT_INO

/-- One inode record: `InodeValue<T>` (parent inode, shared name, data). -/
structure InodeValue (T : Type) where
  parent : Nat
  name : String
  data : T
  deriving DecidableEq, Repr

/-- `InodeData<T>`: the inode table and the per-parent child indices. -/
structure InodeData (T : Type) where
  inodes : List (Nat × InodeValue T)
  children : List (Nat × List (String × Nat))
  deriving DecidableEq, Repr

/-- `InodeMapper<T>`. -/
structure InodeMapper (T : Type) where
  data : InodeData T
  root_inode : Nat
  next_inode : Nat
  deriving DecidableEq, Repr

/-- `ValueCreatorParams<'a, T>` passed to value-creator closures. -/
structure ValueCreatorParams (T : Type) where
  new_inode : Nat
  parent : Nat
  child_name : String
  existing_data : Option T

/-- `InsertError`. -/
inductive InsertError where
  | ParentNotFound
  deriving DecidableEq, Repr

/-- `RenameError`. -/
inductive RenameError where
  | NotFound
  | ParentNotFound
  | NewParentNotFound
  deriving DecidableEq, Repr

namespace InodeMapper

variable {T : Type}

/-- `InodeMapper::new`: fresh mapper with the root record installed
(`parent = root`, empty name) and the allocator seeded at root + 1. -/
def new (d : T) : InodeMapper T :=
  { data :=
      { inodes := fmInsert ROOT_INODE ⟨ROOT_INODE, "", d⟩ []
        children := [] }
    root_inode := ROOT_INODE
    next_inode := ROOT_INODE + 1 }

/-- Replace the record stored for inode `i` (helper for in-place updates). -/
def setRecord (m : InodeMapper T) (i : Nat) (v : InodeValue T) : InodeMapper T :=
  { m with data := { m.data with inodes := fmInsert i v m.data.inodes } }

/-- `InodeMapper::insert_child_unchecked`.  Returns `none` on panic (the
`get_mut(&inode).unwrap()` in the existing-child branch). -/
def insert_child_unchecked (m : InodeMapper T) (parent : Nat) (child : String)
    (f : ValueCreatorParams T → T) : Option (Nat × InodeMapper T) :=
  let pc := (fmGet m.data.children parent).getD []
  match fmGet pc child with
  | none =>
    -- fresh child: allocate `next_inode`, advance the allocator, insert record
    let i := m.next_inode
    let pc' := fmInsert child i pc
    some (i,
      { m with
        next_inode := i + 1
        data :=
          { inodes := fmInsert i ⟨parent, child, f ⟨i, parent, child, none⟩⟩ m.data.inodes
            children := fmInsert parent pc' m.data.children } })
  | some i =>
    -- existing child: replace its data via the creator; parent/name untouched
    match fmGet m.data.inodes i with
    | none => none
    | some old =>
      some (i, m.setRecord i ⟨old.parent, old.name, f ⟨i, parent, child, some old.data⟩⟩)

/-- `InodeMapper::insert_child`: checks the parent first. -/
def insert_child (m : InodeMapper T) (parent : Nat) (child : String)
    (f : ValueCreatorParams T → T) : Option (Except InsertError (Nat × InodeMapper T)) :=
  match fmGet m.data.inodes parent with
  | none => some (Except.error InsertError.ParentNotFound)
  | some _ => (m.insert_child_unchecked parent child f).map Except.ok

/-- Fold step of `insert_children`: sequential `insert_child_unchecked`
calls collecting the produced inodes. -/
def insertChildrenAux (parent : Nat) :
    InodeMapper T → List (String × (ValueCreatorParams T → T)) →
    Option (List Nat × InodeMapper T)
  | m, [] => some ([], m)
  | m, (c, f) :: rest =>
    match m.insert_child_unchecked parent c f with
    | none => none
    | some (i, m') =>
      match insertChildrenAux parent m' rest with
      | none => none
      | some (is, m'') => some (i :: is, m'')

/-- `InodeMapper::insert_children`.  After the parent check, the reserve
step materialises an (empty) child index for the parent when it has none;
then each child is inserted with `insert_child_unchecked`. -/
def insert_children (m : InodeMapper T) (parent : Nat)
    (children : List (String × (ValueCreatorParams T → T))) :
    Option (Except InsertError (List Nat × InodeMapper T)) :=
  match fmGet m.data.inodes parent with
  | none => some (Except.error InsertError.ParentNotFound)
  | some _ =>
    let m1 :=
      match fmGet m.data.children parent with
      | some _ => m  -- reserve only affects capacity, no observable change
      | none =>
        { m with data := { m.data with children := fmInsert parent [] m.data.children } }
    (insertChildrenAux parent m1 children).map Except.ok

/-- `InodeMapper::lookup`: child index hit plus record fetch.  Outer `none`
is the `inodes.get(child_inode).unwrap()` panic; `some none` is "not found". -/
def lookup (m : InodeMapper T) (parent : Nat) (name : String) :
    Option (Option (Nat × InodeValue T)) :=
  match fmGet m.data.children parent with
  | none => some none
  | some pc =>
    match fmGet pc name with
    | none => some none
    | some i =>
      match fmGet m.data.inodes i with
      | none => none
      | some v => some (some (i, v))

/-- `InodeMapper::get`. -/
def get (m : InodeMapper T) (i : Nat) : Option (InodeValue T) :=
  fmGet m.data.inodes i

/-- `InodeMapper::rename`.  Total (no panics): errors via `RenameError`.
On success returns the displaced-data option (always `none` in the source —
the displaced inode record is deliberately left in place) and the new mapper. -/
def rename (m : InodeMapper T) (parent : Nat) (oldname : String)
    (newparent : Nat) (newname : String) :
    Except RenameError (Option (Nat × T) × InodeMapper T) :=
  match fmGet m.data.inodes parent with
  | none => Except.error RenameError.ParentNotFound
  | some _ =>
    match fmGet m.data.inodes newparent with
    | none => Except.error RenameError.NewParentNotFound
    | some _ =>
      match fmGet m.data.children parent with
      | none => Except.error RenameError.NotFound
      | some pc =>
        match fmGet pc oldname with
        | none => Except.error RenameError.NotFound
        | some child =>
          -- remove the source edge, pruning the index if it became empty
          let pc' := fmErase pc oldname
          let children1 :=
            if pc' = [] then fmErase m.data.children parent
            else fmInsert parent pc' m.data.children
          -- update the moved record to the destination parent/name
          let inodes1 :=
            match fmGet m.data.inodes child with
            | none => m.data.inodes
            | some v => fmInsert child ⟨newparent, newname, v.data⟩ m.data.inodes
          -- insert the destination edge (silently displacing any old target)
          let npc := (fmGet children1 newparent).getD []
          let children2 := fmInsert newparent (fmInsert newname child npc) children1
          Except.ok (none, { m with data := { inodes := inodes1, children := children2 } })

/-- One layer of `InodeMapper::remove`, parameterised by the recursive call
used for the cascade.  `none` models a panic (the debug assertion on root)
or fuel exhaustion propagated from `recurse`. -/
def removeStep (recurse : InodeMapper T → Nat → Option (Option T × InodeMapper T))
    (m : InodeMapper T) (i : Nat) : Option (Option T × InodeMapper T) :=
  if i = ROOT_INODE then none
  else
    match fmGet m.data.inodes i with
    | none => some (none, m)
    | some v =>
      let inodes1 := fmErase m.data.inodes i
      -- detach from the parent's child index, pruning it if now empty
      let children1 :=
        match fmGet m.data.children v.parent with
        | none => m.data.children
        | some pc =>
          let pc' := fmErase pc v.name
          if pc' = [] then fmErase m.data.children v.parent
          else fmInsert v.parent pc' m.data.children
      let m1 : InodeMapper T := { m with data := { inodes := inodes1, children := children1 } }
      match fmGet m1.data.children i with
      | none => some (some v.data, m1)
      | some cs =>
        -- drop this inode's own child index and cascade into its children
        let m2 : InodeMapper T :=
          { m1 with data := { m1.data with children := fmErase m1.data.children i } }
        match (cs.map Prod.snd).foldlM (fun acc c => (recurse acc c).map Prod.snd) m2 with
        | none => none
        | some m3 => some (some v.data, m3)

/-- Fuel-indexed `remove`; each cascade level consumes one unit of fuel. -/
def removeAux : Nat → InodeMapper T → Nat → Option (Option T × InodeMapper T)
  | 0 => removeStep (fun _ _ => none)
  | fuel + 1 => removeStep (removeAux fuel)

/-- `InodeMapper::remove`: cascading removal, fuelled by the size of the
inode table (an upper bound on the cascade depth). -/
def remove (m : InodeMapper T) (i : Nat) : Option (Option T × InodeMapper T) :=
  removeAux m.data.inodes.length m i

/-- One step of the upward walk of `InodeMapper::resolve` (fuelled; the Rust
loop would diverge on a parent cycle, and returns `None` on a missing link —
both are mapped to `none` here, `resolve`'s own `None` result). -/
def resolveAux (m : InodeMapper T) : Nat → Nat → InodeValue T →
    Option (List (InodeValue T))
  | fuel, i, v =>
    if v.parent = i then some []
    else
      match fuel with
      | 0 => none
      | fuel + 1 =>
        match fmGet m.data.inodes v.parent with
        | none => none
        | some pv => (resolveAux m fuel v.parent pv).map (v :: ·)

/-- `InodeMapper::resolve`: walk from `i` up to (excluding) the root,
collecting records leaf-first. -/
def resolve (m : InodeMapper T) (i : Nat) : Option (List (InodeValue T)) :=
  match fmGet m.data.inodes i with
  | none => none
  | some v => resolveAux m m.data.inodes.length i v

/-- The walk of `InodeMapper::ensure_path_exists` over the remaining path
components, carrying the processed prefix, the current inode and the path
cache.  Mirrors the source: cache hit, else child-index hit, else
`insert_child_unchecked` with the wrapped default-parent creator. -/
def ensureAux (g : ValueCreatorParams T → T) :
    InodeMapper T → List (List String × Nat) → List String → Nat → List String →
    Option (Nat × InodeMapper T × List (List String × Nat))
  | m, cache, _, cur, [] => some (cur, m, cache)
  | m, cache, pre, cur, comp :: rest =>
    let curPath := pre ++ [comp]
    match fmGet cache curPath with
    | some i => ensureAux g m cache curPath i rest
    | none =>
      let step : Option (Nat × InodeMapper T) :=
        match fmGet m.data.children cur with
        | some pc =>
          match fmGet pc comp with
          | some ci => some (ci, m)
          | none => m.insert_child_unchecked cur comp
              (fun ps => g { ps with existing_data := none })
        | none => m.insert_child_unchecked cur comp
            (fun ps => g { ps with existing_data := none })
      match step with
      | none => none
      | some (ni, m') => ensureAux g m' (fmInsert curPath ni cache) curPath ni rest

/-- `InodeMapper::ensure_path_exists`.  The source indexes the cache at the
empty path (always present, installed by `batch_insert`); an absent entry
would panic, hence `none`. -/
def ensure_path_exists (m : InodeMapper T) (cache : List (List String × Nat))
    (path : List String) (g : ValueCreatorParams T → T) :
    Option (Nat × InodeMapper T × List (List String × Nat)) :=
  match fmGet cache ([] : List String) with
  | none => none
  | some root => ensureAux g m cache [] root path

/-- The per-entry loop of `batch_insert`: pop the entry name (panic on an
empty path), materialise the intermediate directories, insert the entry. -/
def batchInsertAux (g : ValueCreatorParams T → T) :
    InodeMapper T → List (List String × Nat) →
    List (List String × (ValueCreatorParams T → T)) →
    Option (InodeMapper T × List (List String × Nat))
  | m, cache, [] => some (m, cache)
  | m, cache, (path, f) :: rest =>
    match path.getLast? with
    | none => none  -- `path.pop().expect("Name should be provided")`
    | some name =>
      match ensure_path_exists m cache path.dropLast g with
      | none => none
      | some (pi, m', cache') =>
        match m'.insert_child_unchecked pi name f with
        | none => none
        | some (_, m'') => batchInsertAux g m'' cache' rest

/-- `InodeMapper::batch_insert`: parent check, stable sort by path length
(`sort_by_key`), then the insertion loop seeded with `{[] ↦ parent}`. -/
def batch_insert (m : InodeMapper T) (parent : Nat)
    (entries : List (List String × (ValueCreatorParams T → T)))
    (g : ValueCreatorParams T → T) : Option (Except InsertError (InodeMapper T)) :=
  match fmGet m.data.inodes parent with
  | none => some (Except.error InsertError.ParentNotFound)
  | some _ =>
    let sorted := entries.mergeSort (fun x y => Nat.ble x.1.length y.1.length)
    (batchInsertAux g m (fmInsert ([] : List String) parent []) sorted).map
      (fun p => Except.ok p.1)

end InodeMapper

/-! ## The components/path resolvers (`src/core/inode_mapping.rs`) -/

/-- Resolver state: an `InodeMapper` whose per-inode data is the `u64`
lookup refcount (`InodeMapper<AtomicU64>`). -/
abbrev CState := InodeMapper Nat

/-- The value-creator closure passed to `insert_child` on the slow path of
`ComponentsResolver::lookup`: `|_| AtomicU64::new(if increment { 1 } else { 0 })`.
It ignores its `ValueCreatorParams` argument, `existing_data` included. -/
def lookupValueCreator (increment : Bool) : ValueCreatorParams Nat → Nat :=
  fun _ => if increment then 1 else 0

/-- The value-creator used by `ComponentsResolver::add_children`: merges
with an existing counter when present. -/
def addChildrenCreator (increment : Bool) : ValueCreatorParams Nat → Nat :=
  fun ps =>
    match ps.existing_data with
    | some c => if increment then wadd1 c else c
    | none => if increment then 1 else 0

namespace ComponentsResolver

/-- `ComponentsResolver::new`: fresh mapper, root refcount `0`. -/
def new : CState := InodeMapper.new 0

/-- `ComponentsResolver::lookup`.  Fast path: child-index hit under the
read lock, `fetch_add(1)` if `increment`.  Slow path: write-locked
`insert_child` with `lookupValueCreator`; its `expect` turns an insert
error into a panic (`none`). -/
def lookup (st : CState) (parent : Nat) (child : String) (increment : Bool) :
    Option (Nat × CState) :=
  match st.lookup parent child with
  | none => none
  | some (some (i, v)) =>
    if increment then some (i, st.setRecord i ⟨v.parent, v.name, wadd1 v.data⟩)
    else some (i, st)
  | some none =>
    match st.insert_child parent child (lookupValueCreator increment) with
    | some (Except.ok (i, st')) => some (i, st')
    | _ => none

/-- `ComponentsResolver::add_children`: bulk `insert_children` with the
merging creator; errors are `expect`-panics. -/
def add_children (st : CState) (parent : Nat) (children : List String)
    (increment : Bool) : Option (List (String × Nat) × CState) :=
  match st.insert_children parent
      (children.map (fun n => (n, addChildrenCreator increment))) with
  | some (Except.ok (is, st')) => some (children.zip is, st')
  | _ => none

/-- `ComponentsResolver::forget`.  The record fetch `expect`-panics when the
inode is absent.  `fetch_sub(nlookup)` wraps; the escalation to a
write-locked `remove` happens only when the **pre-subtract** value was `0`,
and its result is `unwrap`ped. -/
def forget (st : CState) (ino : Nat) (nlookup : Nat) : Option CState :=
  match fmGet st.data.inodes ino with
  | none => none
  | some v =>
    let st1 := st.setRecord ino ⟨v.parent, v.name, wsub v.data nlookup⟩
    if 0 < v.data then some st1
    else
      match st1.remove ino with
      | some (some _, st2) => some st2
      | some (none, _) => none
      | none => none

/-- `ComponentsResolver::resolve_id`: `mapper.resolve` (its `None`
`expect`-panics) projected to the leaf-to-root name list. -/
def resolve_id (st : CState) (ino : Nat) : Option (List String) :=
  (st.resolve ino).map (List.map (·.name))

/-- `ComponentsResolver::rename`: delegates to the mapper; mapper errors
are `expect`-panics. -/
def rename (st : CState) (parent : Nat) (name : String) (newparent : Nat)
    (newname : String) : Option CState :=
  match InodeMapper.rename st parent name newparent newname with
  | Except.ok (_, st') => some st'
  | Except.error _ => none

end ComponentsResolver

namespace PathResolver

/-- `PathResolver::resolve_id`: reverse the component vector and join it
into a path (`.iter().rev().collect::<PathBuf>()`). -/
def resolve_id (st : CState) (ino : Nat) : Option String :=
  (ComponentsResolver.resolve_id st ino).map
    (fun comps => String.intercalate "/" comps.reverse)

end PathResolver

/-! ## The dispatcher (`src/core/macros.rs`)

The two dispatch shapes the claims are about, instantiated at the
components resolver.  The kernel reply object is abstracted: an entry reply
carries the inode (attr/TTL/generation do not affect control flow), and the
directory reply buffer is modelled by its remaining capacity in entries —
`reply.add` returns "refused" exactly when the capacity is exhausted, which
is the one property of the buffer the dispatch logic consumes. -/

/-- Reply of an entry-producing dispatch. -/
inductive EntryReply where
  | entry (ino : Nat)
  | error (errno : Nat)
  deriving DecidableEq, Repr

/-- `handle_fuse_reply_entry`: handler call, `resolver.lookup(..., incr = true)`,
`resolver.resolve_id`, `post_lookup`; on `post_lookup` failure a
compensating `resolver.forget(ino, 1)` and an error reply.  The handler
metadata is abstracted to its success/error outcome (its id component is
`()` for this resolver and the attribute does not affect control flow). -/
def handle_fuse_reply_entry (st : CState) (parent : Nat) (name : String)
    (handlerResult : Except Nat Unit)
    (postLookup : List String → Except Nat Unit) : Option (EntryReply × CState) :=
  match handlerResult with
  | Except.error e => some (EntryReply.error e, st)
  | Except.ok _ =>
    match ComponentsResolver.lookup st parent name true with
    | none => none
    | some (ino, st1) =>
      match ComponentsResolver.resolve_id st1 ino with
      | none => none
      | some rid =>
        match postLookup rid with
        | Except.ok _ => some (EntryReply.entry ino, st1)
        | Except.error e =>
          match ComponentsResolver.forget st1 ino 1 with
          | none => none
          | some st2 => some (EntryReply.error e, st2)

/-- One directory entry as staged in the cursor queue (name plus the kernel
inode assigned by `add_children`; kind/attr payloads are control-irrelevant). -/
structure DirEntry where
  name : String
  ino : Nat
  deriving DecidableEq, Repr

/-- The readdir cursor store: `(inode, offset) → remaining entry queue`. -/
abbrev CursorStore := List ((Nat × Int) × List DirEntry)

/-- Reply of a directory-read dispatch: an errno, or OK together with the
entries that were emitted into the buffer as `(ino, offset, name)`. -/
inductive DirReply where
  | err (errno : Nat)
  | ok (emitted : List (Nat × Int × String))
  deriving DecidableEq, Repr

/-- Raw errno of `ErrorKind::InvalidArgument` (EINVAL). -/
def errInvalidArgument : Nat := 22

/-- Outcome of `handle_dir_read`: the reply, the updated cursor store, and
whether the handler was invoked. -/
structure DirReadResult where
  reply : DirReply
  store : CursorStore
  handlerCalled : Bool
  deriving DecidableEq, Repr

/-- The drain loop of `handle_dir_read`: emit entries while the buffer
accepts them (`cap` = remaining buffer capacity); on refusal, push the
entry back to the front and produce the re-registration key — the
directory inode for `readdir`, but the **entry's** inode in the
`readdirplus` branch (`plus = true`), where the `while let` pattern
shadows the macro's `$ino` with the entry's `ino`. -/
def drainAux (plus : Bool) (dirIno : Nat) :
    Nat → Int → List DirEntry →
    List (Nat × Int × String) × Option ((Nat × Int) × List DirEntry)
  | _, _, [] => ([], none)
  | 0, off, e :: rest =>
    ([], some ((if plus then e.ino else dirIno, off - 1), e :: rest))
  | cap + 1, off, e :: rest =>
    let (es, k) := drainAux plus dirIno cap (off + 1) rest
    ((e.ino, off, e.name) :: es, k)

/-- `handle_dir_read` (both `readdir` and `readdirplus`, selected by
`plus`).  `handlerChildren` abstracts the offset-0 handler call together
with the `add_children` inode assignment: the staged FIFO of entries (or
the handler's error).  `cap` is the reply buffer's capacity in entries. -/
def handle_dir_read (plus : Bool) (ino : Nat) (offset : Int) (cap : Nat)
    (handlerChildren : Except Nat (List DirEntry)) (store : CursorStore) :
    DirReadResult :=
  if offset < 0 then
    { reply := DirReply.err errInvalidArgument, store := store, handlerCalled := false }
  else if offset = 0 then
    match handlerChildren with
    | Except.error e => { reply := DirReply.err e, store := store, handlerCalled := true }
    | Except.ok entries =>
      match drainAux plus ino cap offset entries with
      | (emitted, none) =>
        { reply := DirReply.ok emitted, store := store, handlerCalled := true }
      | (emitted, some (key, rest)) =>
        { reply := DirReply.ok emitted, store := fmInsert key rest store,
          handlerCalled := true }
  else
    match fmGet store (ino, offset) with
    | none => { reply := DirReply.ok [], store := store, handlerCalled := false }
    | some entries =>
      let store1 := fmErase store (ino, offset)
      match drainAux plus ino cap offset entries with
      | (emitted, none) =>
        { reply := DirReply.ok emitted, store := store1, handlerCalled := false }
      | (emitted, some (key, rest)) =>
        { reply := DirReply.ok emitted, store := fmInsert key rest store1,
          handlerCalled := false }

/-! ## Reachability and invariant predicates -/

/-- Mapper states reachable by sequences of the public `InodeMapper`
operations (`new`, `insert_child`, `insert_children`, `batch_insert`,
`rename`, `remove`), each step being a successful (non-panicking)
execution. -/
inductive Reach {T : Type} : InodeMapper T → Prop
  | new (d : T) : Reach (InodeMapper.new d)
  | insert_child {m m' : InodeMapper T} {p : Nat} {c : String}
      {f : ValueCreatorParams T → T} {i : Nat} :
      Reach m → m.insert_child p c f = some (Except.ok (i, m')) → Reach m'
  | insert_children {m m' : InodeMapper T} {p : Nat}
      {cs : List (String × (ValueCreatorParams T → T))} {is : List Nat} :
      Reach m → m.insert_children p cs = some (Except.ok (is, m')) → Reach m'
  | batch_insert {m m' : InodeMapper T} {p : Nat}
      {es : List (List String × (ValueCreatorParams T → T))}
      {g : ValueCreatorParams T → T} :
      Reach m → m.batch_insert p es g = some (Except.ok m') → Reach m'
  | rename {m m' : InodeMapper T} {p : Nat} {n : String} {p' : Nat} {n' : String}
      {r : Option (Nat × T)} :
      Reach m → m.rename p n p' n' = Except.ok (r, m') → Reach m'
  | remove {m m' : InodeMapper T} {i : Nat} {r : Option T} :
      Reach m → m.remove i = some (r, m') → Reach m'

/-- Same reachable-state relation, but with every `insert_children` call
restricted to a non-empty child list. -/
inductive ReachNE {T : Type} : InodeMapper T → Prop
  | new (d : T) : ReachNE (InodeMapper.new d)
  | insert_child {m m' : InodeMapper T} {p : Nat} {c : String}
      {f : ValueCreatorParams T → T} {i : Nat} :
      ReachNE m → m.insert_child p c f = some (Except.ok (i, m')) → ReachNE m'
  | insert_children {m m' : InodeMapper T} {p : Nat}
      {cs : List (String × (ValueCreatorParams T → T))} {is : List Nat} :
      ReachNE m → cs ≠ [] →
      m.insert_children p cs = some (Except.ok (is, m')) → ReachNE m'
  | batch_insert {m m' : InodeMapper T} {p : Nat}
      {es : List (List String × (ValueCreatorParams T → T))}
      {g : ValueCreatorParams T → T} :
      ReachNE m → m.batch_insert p es g = some (Except.ok m') → ReachNE m'
  | rename {m m' : InodeMapper T} {p : Nat} {n : String} {p' : Nat} {n' : String}
      {r : Option (Nat × T)} :
      ReachNE m → m.rename p n p' n' = Except.ok (r, m') → ReachNE m'
  | remove {m m' : InodeMapper T} {i : Nat} {r : Option T} :
      ReachNE m → m.remove i = some (r, m') → ReachNE m'

/-- Invariant I2 exactly as the spec claims it: every present non-root
inode's recorded parent is present, and the parent's child index maps the
inode's recorded name back to the inode. -/
def ClaimParentIndexInv {T : Type} (m : InodeMapper T) : Prop :=
  ∀ i v, fmGet m.data.inodes i = some v → i ≠ ROOT_INODE →
    ∃ pv pc, fmGet m.data.inodes v.parent = some pv ∧
      fmGet m.data.children v.parent = some pc ∧ fmGet pc v.name = some i

/-- Invariant I5 as the spec claims it: a parent's entry in the children
map, when present, is a non-empty index (so present iff non-empty —
absent entries trivially have no index to be non-empty). -/
def NoEmptyIndex {T : Type} (m : InodeMapper T) : Prop :=
  ∀ p pc, fmGet m.data.children p = some pc → pc ≠ []

/-- `NoEmptyIndex` away from one distinguished parent (used while a bulk
insert is mid-flight, after the reserve step installed an empty index). -/
def NoEmptyIndexExcept {T : Type} (p : Nat) (m : InodeMapper T) : Prop :=
  ∀ q pc, q ≠ p → fmGet m.data.children q = some pc → pc ≠ []

/-- Well-formedness maintained by every reachable mapper state. -/
structure MapperWF {T : Type} (m : InodeMapper T) : Prop where
  root_rec : ∃ d, fmGet m.data.inodes ROOT_INODE = some ⟨ROOT_INODE, "", d⟩
  keys_present : ∀ p pc, fmGet m.data.children p = some pc →
    ∃ v, fmGet m.data.inodes p = some v
  edge_rec : ∀ p pc n i, fmGet m.data.children p = some pc → fmGet pc n = some i →
    ∃ v, fmGet m.data.inodes i = some v ∧ v.parent = p ∧ v.name = n
  edge_ne_root : ∀ p pc n i, fmGet m.data.children p = some pc →
    fmGet pc n = some i → i ≠ ROOT_INODE
  fresh : ∀ i v, fmGet m.data.inodes i = some v → i < m.next_inode

/-- Record presence is monotone between two mapper states (nothing
removed). -/
def PresMono {T : Type} (m m' : InodeMapper T) : Prop :=
  ∀ j w, fmGet m.data.inodes j = some w → ∃ w', fmGet m'.data.inodes j = some w'

/-- Every inode stored in a `batch_insert` path cache is present. -/
def CacheOK {T : Type} (m : InodeMapper T) (cache : List (List String × Nat)) : Prop :=
  ∀ pth q, fmGet cache pth = some q → ∃ v, fmGet m.data.inodes q = some v

/-- The slow-path value-creator as §4.2 of the spec describes it (for
comparison with the implementation's `lookupValueCreator`): "if the row
already exists when the write lock is acquired, the value-creator reads
the existing counter and sets it to `existing + (incr ? 1 : 0)`". -/
def specLookupValueCreator (increment : Bool) : ValueCreatorParams Nat → Nat :=
  fun ps =>
    match ps.existing_data with
    | some c => c + (if increment then 1 else 0)
    | none => if increment then 1 else 0

/-! ## Concrete states used by counterexamples and witnesses -/

/-- Extract the mapper from a successful `insert_child` result
(default otherwise); only used to spell concrete demo states. -/
def insOk {T : Type} (d : InodeMapper T)
    (r : Option (Except InsertError (Nat × InodeMapper T))) : InodeMapper T :=
  match r with
  | some (Except.ok (_, m)) => m
  | _ => d

/-- Extract the state from a successful resolver `lookup` (default
otherwise); only used to spell concrete demo states. -/
def lkOk (d : CState) (r : Option (Nat × CState)) : CState :=
  match r with
  | some (_, st) => st
  | none => d

/-- Resolver state after `lookup(ROOT, "a", (), true)` on a fresh resolver:
inode `2` with refcount `1`. -/
def oneSt : CState := lkOk ComponentsResolver.new
  (ComponentsResolver.lookup ComponentsResolver.new 1 "a" true)

/-- C6 chain, step 1: `lookup(ROOT, "dir1", (), true)` on a fresh resolver. -/
def c6st1 : CState := lkOk ComponentsResolver.new
  (ComponentsResolver.lookup ComponentsResolver.new 1 "dir1" true)

/-- C6 chain, step 2: `lookup(2, "dir2", (), true)`. -/
def c6st2 : CState := lkOk ComponentsResolver.new
  (ComponentsResolver.lookup c6st1 2 "dir2" true)

/-- C6 chain, step 3: `lookup(3, "file.txt", (), true)`. -/
def c6st3 : CState := lkOk ComponentsResolver.new
  (ComponentsResolver.lookup c6st2 3 "file.txt" true)

/-- Displacement scenario, step 1: `insert_child(ROOT, "p")` → inode 2. -/
def rnSt1 : InodeMapper Nat := insOk (InodeMapper.new 0)
  ((InodeMapper.new 0).insert_child 1 "p" (fun _ => 0))

/-- Displacement scenario, step 2: `insert_child(ROOT, "q")` → inode 3. -/
def rnSt2 : InodeMapper Nat := insOk (InodeMapper.new 0)
  (rnSt1.insert_child 1 "q" (fun _ => 0))

/-- Displacement scenario, step 3: `insert_child(2, "x")` → inode 4. -/
def rnSt3 : InodeMapper Nat := insOk (InodeMapper.new 0)
  (rnSt2.insert_child 2 "x" (fun _ => 0))

/-- Displacement scenario, step 4: `insert_child(3, "y")` → inode 5. -/
def rnSt4 : InodeMapper Nat := insOk (InodeMapper.new 0)
  (rnSt3.insert_child 3 "y" (fun _ => 0))

/-- Displacement scenario, final state: `rename(2, "x", 3, "y")` moves
inode 4 onto the edge `(3, "y")`, displacing inode 5. -/
def rnSt5 : InodeMapper Nat :=
  match rnSt4.rename 2 "x" 3 "y" with
  | Except.ok (_, m) => m
  | Except.error _ => InodeMapper.new 0

/-- State after `insert_children(ROOT, [])` on a fresh mapper: the reserve
step leaves an empty child index for the root. -/
def emptyIdxSt : InodeMapper Nat :=
  match (InodeMapper.new 0).insert_children 1 [] with
  | some (Except.ok (_, m)) => m
  | _ => InodeMapper.new 0

/-! ## Theorems -/

/-- A property of a cascade recursion: a record absent before stays absent
after (removal never re-adds records). -/
def RemAbsentMono {T : Type}
    (R : InodeMapper T → Nat → Option (Option T × InodeMapper T)) : Prop :=
  ∀ m i r m', R m i = some (r, m') →
    ∀ k, fmGet m.data.inodes k = none → fmGet m'.data.inodes k = none

theorem foldRemove_absent {T : Type}
    {R : InodeMapper T → Nat → Option (Option T × InodeMapper T)}
    (hR : RemAbsentMono R) :
    ∀ (cs : List Nat) (m m3 : InodeMapper T),
      cs.foldlM (fun acc c => (R acc c).map Prod.snd) m = some m3 →
      ∀ k, fmGet m.data.inodes k = none → fmGet m3.data.inodes k = none := by
  intro cs
  induction cs with
  | nil =>
    intro m m3 h k hk
    simp only [List.foldlM_nil, Option.pure_def, Option.some.injEq] at h
    exact h ▸ hk
  | cons c cs ih =>
    intro m m3 h k hk
    simp only [List.foldlM_cons, Option.bind_eq_bind] at h
    rcases hRm : R m c with _ | ⟨r, m1⟩ <;> rw [hRm] at h
    · exact absurd h (by simp)
    · have h' : cs.foldlM (fun acc c => (R acc c).map Prod.snd) m1 = some m3 := by
        simpa using h
      exact ih m1 m3 h' k (hR m c r m1 hRm k hk)

theorem removeStep_absent {T : Type}
    {R : InodeMapper T → Nat → Option (Option T × InodeMapper T)}
    (hR : RemAbsentMono R) : RemAbsentMono (InodeMapper.removeStep R) := by
  intro m i r m' h k hk
  simp only [InodeMapper.removeStep] at h
  split at h
  · exact absurd h (by simp)
  · split at h
    · simp only [Option.some.injEq, Prod.mk.injEq] at h
      exact h.2 ▸ hk
    · rename_i v hv
      split at h
      · simp only [Option.some.injEq, Prod.mk.injEq] at h
        rw [← h.2]
        simp [fmGet_fmErase, hk]
      · split at h
        · exact absurd h (by simp)
        · rename_i cs hcs m3 hfold
          simp only [Option.some.injEq, Prod.mk.injEq] at h
          rw [← h.2]
          exact foldRemove_absent hR _ _ _ hfold k (by simp [fmGet_fmErase, hk])

theorem removeAux_absent {T : Type} :
    ∀ fuel : Nat, RemAbsentMono (InodeMapper.removeAux (T := T) fuel) := by
  intro fuel
  induction fuel with
  | zero =>
    exact removeStep_absent (fun m i r m' h => by exact absurd h (by simp))
  | succ fuel ih =>
    exact removeStep_absent ih

theorem removeStep_erases {T : Type}
    {R : InodeMapper T → Nat → Option (Option T × InodeMapper T)}
    (hR : RemAbsentMono R) (m : InodeMapper T) (i : Nat) (r : Option T)
    (m' : InodeMapper T) (h : InodeMapper.removeStep R m i = some (r, m')) :
    fmGet m'.data.inodes i = none := by
  simp only [InodeMapper.removeStep] at h
  split at h
  · exact absurd h (by simp)
  · split at h
    · rename_i hv
      simp only [Option.some.injEq, Prod.mk.injEq] at h
      exact h.2 ▸ hv
    · rename_i v hv
      split at h
      · simp only [Option.some.injEq, Prod.mk.injEq] at h
        rw [← h.2]
        simp [fmGet_fmErase]
      · split at h
        · exact absurd h (by simp)
        · rename_i cs hcs m3 hfold
          simp only [Option.some.injEq, Prod.mk.injEq] at h
          rw [← h.2]
          exact foldRemove_absent hR _ _ _ hfold i (by simp [fmGet_fmErase])

theorem removeAux_erases {T : Type} (fuel : Nat) (m : InodeMapper T) (i : Nat)
    (r : Option T) (m' : InodeMapper T)
    (h : InodeMapper.removeAux fuel m i = some (r, m')) :
    fmGet m'.data.inodes i = none := by
  cases fuel with
  | zero =>
    exact removeStep_erases (fun m i r m' h => by exact absurd h (by simp)) m i r m' h
  | succ fuel =>
    exact removeStep_erases (removeAux_absent fuel) m i r m' h

/-- A successful `InodeMapper::remove i` leaves `i` absent from the inode
table (whether it was present or not). -/
theorem remove_erases {T : Type} {m : InodeMapper T} {i : Nat} {r : Option T}
    {m' : InodeMapper T} (h : m.remove i = some (r, m')) :
    fmGet m'.data.inodes i = none :=
  removeAux_erases _ m i r m' h

/-- C6: starting from a fresh resolver, `lookup(ROOT, "dir1", (), true)`,
`lookup(2, "dir2", (), true)` and `lookup(3, "file.txt", (), true)` return
inodes 2, 3 and 4, and `PathResolver.resolve_id(4)` then returns
`"dir1/dir2/file.txt"`. -/
theorem c6_path_resolution :
    ComponentsResolver.lookup ComponentsResolver.new ROOT_INODE "dir1" true =
      some (2, c6st1) ∧
    ComponentsResolver.lookup c6st1 2 "dir2" true = some (3, c6st2) ∧
    ComponentsResolver.lookup c6st2 3 "file.txt" true = some (4, c6st3) ∧
    PathResolver.resolve_id c6st3 4 = some "dir1/dir2/file.txt" := by
  refine ⟨by decide, by decide, by decide, by decide⟩

/-- C10: `ComponentsResolver::forget` on an inode absent from the mapper
panics (the record fetch is `expect`ed before the refcount is touched), for
every delta `n`; it is not a no-op. -/
theorem c10_forget_absent_panics (st : CState) (ino n : Nat)
    (h : fmGet st.data.inodes ino = none) :
    ComponentsResolver.forget st ino n = none := by
  unfold ComponentsResolver.forget
  rw [h]

/-- Witness for C10: on a fresh resolver, inode 5 is absent and
`forget(5, 1)` panics. -/
theorem c10_witness :
    fmGet ComponentsResolver.new.data.inodes 5 = none ∧
    ComponentsResolver.forget ComponentsResolver.new 5 1 = none :=
  ⟨by decide, c10_forget_absent_panics ComponentsResolver.new 5 1 (by decide)⟩

/-- Counterexample to C1 as stated: inode 2 has refcount exactly `n = 1`,
yet `forget(2, 1)` does **not** remove it — the record stays, refcount 0
(the code escalates to `remove` only when the pre-subtract value was 0,
not when it was `≤ n`). -/
theorem c1_counterexample :
    fmGet oneSt.data.inodes 2 = some ⟨1, "a", 1⟩ ∧
    (ComponentsResolver.forget oneSt 2 1).map (fun s => fmGet s.data.inodes 2) =
      some (some ⟨1, "a", 0⟩) := by
  refine ⟨by decide, by decide⟩

/-- C1 (amended): `forget(i, n)` wrapping-subtracts `n` from the refcount
and returns without removing `i` whenever the **pre-subtract** value was
strictly greater than `0`; only a pre-subtract value of `0` escalates to
`remove(i)`, which deletes the record. -/
theorem c1_forget_semantics (st : CState) (ino n : Nat) (v : InodeValue Nat)
    (h : fmGet st.data.inodes ino = some v) :
    (0 < v.data →
      ComponentsResolver.forget st ino n =
        some (st.setRecord ino ⟨v.parent, v.name, wsub v.data n⟩)) ∧
    (v.data = 0 → ∀ st', ComponentsResolver.forget st ino n = some st' →
      fmGet st'.data.inodes ino = none) := by
  constructor
  · intro hpos
    simp only [ComponentsResolver.forget, h]
    rw [if_pos hpos]
  · intro hzero st' hst'
    simp only [ComponentsResolver.forget, h, hzero] at hst'
    simp only [Nat.lt_irrefl, if_false] at hst'
    split at hst'
    · rename_i d st2 hrm
      have hst2 : st2 = st' := by simpa using hst'
      subst hst2
      exact remove_erases hrm
    · exact absurd hst' (by simp)
    · exact absurd hst' (by simp)

/-- Witness for C1 (amended): on inode 2 with refcount 1, `forget(2, 1)`
keeps the record at refcount 0; a second `forget(2, 1)` (pre-subtract
value 0) removes it. -/
theorem c1_witness :
    ComponentsResolver.forget oneSt 2 1 =
      some (oneSt.setRecord 2 ⟨1, "a", wsub 1 1⟩) ∧
    (ComponentsResolver.forget (oneSt.setRecord 2 ⟨1, "a", 0⟩) 2 1).map
      (fun s => fmGet s.data.inodes 2) = some none := by
  constructor
  · exact (c1_forget_semantics oneSt 2 1 ⟨1, "a", 1⟩ (by decide)).1 (by decide)
  · rcases hE : ComponentsResolver.forget (oneSt.setRecord 2 ⟨1, "a", 0⟩) 2 1 with _ | s0
    · exact absurd hE (by decide)
    · rw [Option.map_some']
      exact congrArg some
        ((c1_forget_semantics (oneSt.setRecord 2 ⟨1, "a", 0⟩) 2 1 ⟨1, "a", 0⟩
          (by decide)).2 rfl s0 hE)

/-- Counterexample to C4 as stated: with `incr = true` and an existing
counter value `c = 5` in the `ValueCreatorParams`, the slow-path
value-creator of `ComponentsResolver::lookup` produces `1`, not
`c + 1 = 6` as the claim (following the spec) asserts. -/
theorem c4_counterexample :
    lookupValueCreator true ⟨2, 1, "a", some 5⟩ = 1 ∧
    specLookupValueCreator true ⟨2, 1, "a", some 5⟩ = 5 + 1 ∧
    lookupValueCreator true ⟨2, 1, "a", some 5⟩ ≠
      specLookupValueCreator true ⟨2, 1, "a", some 5⟩ := by
  refine ⟨rfl, rfl, by decide⟩

/-- C4 (amended): on the lookup slow path (child edge not found under the
read lock) the resolver escalates to a write-locked `insert_child` whose
value-creator ignores `existing_data` entirely and always produces
`incr ? 1 : 0` — an existing row's counter would be overwritten, not
merged. -/
theorem c4_slow_path_creator (st : CState) (parent : Nat) (child : String)
    (increment : Bool)
    (h : InodeMapper.lookup st parent child = some none) :
    (ComponentsResolver.lookup st parent child increment =
      match st.insert_child parent child (lookupValueCreator increment) with
      | some (Except.ok r) => some r
      | _ => none) ∧
    ∀ ps : ValueCreatorParams Nat,
      lookupValueCreator increment ps = if increment then 1 else 0 := by
  constructor
  · simp only [ComponentsResolver.lookup, h]
    rcases hins : InodeMapper.insert_child st parent child
        (lookupValueCreator increment) with _ | (a | ⟨i2, st2⟩) <;> simp [hins]
  · intro ps
    rfl

/-- Witness for C4 (amended): concrete slow-path lookup on a fresh
resolver, plus the creator evaluated on a params record carrying an
existing counter. -/
theorem c4_witness :
    (ComponentsResolver.lookup ComponentsResolver.new 1 "zz" true =
      match ComponentsResolver.new.insert_child 1 "zz" (lookupValueCreator true) with
      | some (Except.ok r) => some r
      | _ => none) ∧
    lookupValueCreator true ⟨7, 1, "zz", some 41⟩ = if true then 1 else 0 :=
  ⟨(c4_slow_path_creator ComponentsResolver.new 1 "zz" true (by decide)).1,
   (c4_slow_path_creator ComponentsResolver.new 1 "zz" true (by decide)).2
     ⟨7, 1, "zz", some 41⟩⟩

/-- Counterexample to C3 as stated: `rename(2, "x", 3, "y")` displaces
inode 5 (the old target of edge `(3, "y")`); the displaced record is kept
but left **unchanged** — parent `3`, name `"y"` — not updated to the
source values `2`, `"x"` as the claim asserts. -/
theorem c3_counterexample :
    rnSt4.rename 2 "x" 3 "y" = Except.ok (none, rnSt5) ∧
    fmGet rnSt4.data.inodes 5 = some ⟨3, "y", 0⟩ ∧
    fmGet rnSt5.data.inodes 5 = some ⟨3, "y", 0⟩ ∧
    ((3 : Nat) ≠ 2 ∧ "y" ≠ "x") := by
  refine ⟨rfl, by decide, by decide, by decide, by decide⟩

/-- C3 (amended): a successful rename whose destination edge `(p', n')`
already mapped to `d ≠ c` (the source child) keeps `d`'s record retrievable
and **unchanged** (parent/name stay the destination values), and returns
`None` as the displaced-data option. -/
theorem c3_rename_displaced {T : Type} (m : InodeMapper T) (p : Nat) (n : String)
    (p' : Nat) (n' : String) (c d : Nat) (pv npv dv : InodeValue T)
    (pc npc : List (String × Nat))
    (hpv : fmGet m.data.inodes p = some pv)
    (hnpv : fmGet m.data.inodes p' = some npv)
    (hpc : fmGet m.data.children p = some pc)
    (hc : fmGet pc n = some c)
    (hnpc : fmGet m.data.children p' = some npc)
    (hd : fmGet npc n' = some d)
    (hdc : d ≠ c)
    (hdv : fmGet m.data.inodes d = some dv) :
    ∃ m', m.rename p n p' n' = Except.ok (none, m') ∧
      fmGet m'.data.inodes d = some dv := by
  simp only [InodeMapper.rename, hpv, hnpv, hpc, hc]
  refine ⟨_, rfl, ?_⟩
  rcases hcv : fmGet m.data.inodes c with _ | cv <;> simp only [hcv]
  · exact hdv
  · rw [fmGet_fmInsert, if_neg hdc]
    exact hdv

/-- Witness for C3 (amended): the concrete displacement scenario
(`rename(2, "x", 3, "y")` displacing inode 5). -/
theorem c3_witness :
    ∃ m', rnSt4.rename 2 "x" 3 "y" = Except.ok (none, m') ∧
      fmGet m'.data.inodes 5 = some ⟨3, "y", 0⟩ :=
  c3_rename_displaced rnSt4 2 "x" 3 "y" 4 5 ⟨1, "p", 0⟩ ⟨1, "q", 0⟩ ⟨3, "y", 0⟩
    [("x", 4)] [("y", 5)] (by decide) (by decide) (by decide) (by decide)
    (by decide) (by decide) (by decide) (by decide)

/-- C5: the dispatcher's directory-read cursor re-registration.  At the
failing input (readdirplus continuation for directory inode 1, saved
cursor at key `(1, 5)`, zero remaining buffer capacity, first queued entry
having inode 2), the refused entry is pushed back and the cursor is
re-registered under `(2, 4)` — the **entry's** inode — not `(1, 4)` as the
spec requires; the `readdir` branch on the same input uses the directory
inode `(1, 4)`. -/
theorem c5_readdirplus_key_divergence :
    (handle_dir_read true 1 5 0 (Except.ok [])
        [((1, 5), [⟨"a", 2⟩])]).store = [((2, 4), [⟨"a", 2⟩])] ∧
    fmGet (handle_dir_read true 1 5 0 (Except.ok [])
        [((1, 5), [⟨"a", 2⟩])]).store (1, 4) = none ∧
    fmGet (handle_dir_read true 1 5 0 (Except.ok [])
        [((1, 5), [⟨"a", 2⟩])]).store (2, 4) = some [⟨"a", 2⟩] ∧
    (handle_dir_read false 1 5 0 (Except.ok [])
        [((1, 5), [⟨"a", 2⟩])]).store = [((1, 4), [⟨"a", 2⟩])] := by
  refine ⟨by decide, by decide, by decide, by decide⟩

/-- C8: a strictly negative directory-read offset is rejected with
`InvalidArgument` before any handler call or cursor-store change; a
strictly positive offset with no registered cursor replies OK with no
entries (and changes nothing). -/
theorem c8_offset_validation (plus : Bool) (ino : Nat) (offset : Int) (cap : Nat)
    (hc : Except Nat (List DirEntry)) (store : CursorStore) :
    (offset < 0 →
      handle_dir_read plus ino offset cap hc store =
        { reply := DirReply.err errInvalidArgument, store := store,
          handlerCalled := false }) ∧
    (0 < offset → fmGet store (ino, offset) = none →
      handle_dir_read plus ino offset cap hc store =
        { reply := DirReply.ok [], store := store, handlerCalled := false }) := by
  constructor
  · intro h
    simp [handle_dir_read, h]
  · intro h hnone
    have h0 : ¬offset < 0 := by omega
    have h1 : ¬offset = 0 := by omega
    simp [handle_dir_read, h0, h1, hnone]

/-- Witness for C8: offset `-1` is rejected with EINVAL; offset `3` with
an empty cursor store replies OK and empty. -/
theorem c8_witness :
    handle_dir_read false 1 (-1) 5 (Except.ok []) [] =
      { reply := DirReply.err errInvalidArgument, store := [],
        handlerCalled := false } ∧
    handle_dir_read false 1 3 5 (Except.ok []) [] =
      { reply := DirReply.ok [], store := [], handlerCalled := false } :=
  ⟨(c8_offset_validation false 1 (-1) 5 (Except.ok []) []).1 (by decide),
   (c8_offset_validation false 1 3 5 (Except.ok []) []).2 (by decide) (by decide)⟩

/-! ### Helper lemmas for the child-index pruning invariant (C7) -/

theorem fmGet_some_ne_nil {α β : Type} [DecidableEq α] {l : List (α × β)} {k : α}
    {v : β} (h : fmGet l k = some v) : l ≠ [] := by
  cases l with
  | nil => exact absurd h (by simp)
  | cons a t => exact List.cons_ne_nil a t

/-- Case analysis of `insert_child_unchecked` on the children map: either
the fresh-child branch rebuilt the parent's index, or the existing-child
branch left the children map unchanged (and the parent's index maps the
child name to the returned inode). -/
theorem icu_children_cases {T : Type} {m : InodeMapper T} {p : Nat} {c : String}
    {f : ValueCreatorParams T → T} {i : Nat} {m' : InodeMapper T}
    (h : m.insert_child_unchecked p c f = some (i, m')) :
    (m'.data.children =
      fmInsert p (fmInsert c i ((fmGet m.data.children p).getD [])) m.data.children) ∨
    (m'.data.children = m.data.children ∧
      ∃ pc, fmGet m.data.children p = some pc ∧ fmGet pc c = some i) := by
  simp only [InodeMapper.insert_child_unchecked] at h
  split at h
  · left
    simp only [Option.some.injEq, Prod.mk.injEq] at h
    rw [← h.1, ← h.2]
  · rename_i i0 hi0
    split at h
    · exact absurd h (by simp)
    · right
      simp only [Option.some.injEq, Prod.mk.injEq] at h
      constructor
      · rw [← h.2]
        rfl
      · rcases hcp : fmGet m.data.children p with _ | pc
        · rw [hcp] at hi0
          exact absurd hi0 (by simp [fmGet])
        · rw [hcp] at hi0
          exact ⟨pc, rfl, h.1 ▸ hi0⟩

/-- After a successful `insert_child_unchecked` at parent `p`:
empty-index-freeness away from `p` is preserved, and `p`'s index (when
present) is non-empty. -/
theorem icu_noEmptyExcept {T : Type} {m : InodeMapper T} {p : Nat} {c : String}
    {f : ValueCreatorParams T → T} {i : Nat} {m' : InodeMapper T}
    (h : m.insert_child_unchecked p c f = some (i, m'))
    (hne : NoEmptyIndexExcept p m) :
    NoEmptyIndexExcept p m' ∧
    (∀ pc, fmGet m'.data.children p = some pc → pc ≠ []) := by
  rcases icu_children_cases h with hch | ⟨hch, pc0, hpc0, hc0⟩
  · constructor
    · intro q pc hq hpc
      rw [hch, fmGet_fmInsert, if_neg hq] at hpc
      exact hne q pc hq hpc
    · intro pc hpc
      rw [hch, fmGet_fmInsert, if_pos rfl] at hpc
      rw [← Option.some.injEq] at hpc
      simp only [Option.some.injEq] at hpc
      rw [← hpc]
      simp [fmInsert]
  · constructor
    · intro q pc hq hpc
      rw [hch] at hpc
      exact hne q pc hq hpc
    · intro pc hpc
      rw [hch, hpc0] at hpc
      simp only [Option.some.injEq] at hpc
      rw [← hpc]
      exact fmGet_some_ne_nil hc0

/-- `insert_child_unchecked` preserves the full no-empty-index invariant. -/
theorem icu_noEmpty {T : Type} {m : InodeMapper T} {p : Nat} {c : String}
    {f : ValueCreatorParams T → T} {i : Nat} {m' : InodeMapper T}
    (h : m.insert_child_unchecked p c f = some (i, m'))
    (hne : NoEmptyIndex m) : NoEmptyIndex m' := by
  obtain ⟨hex, hp⟩ := icu_noEmptyExcept h (fun q pc _ => hne q pc)
  intro q pc hpc
  by_cases hq : q = p
  · exact hp pc (hq ▸ hpc)
  · exact hex q pc hq hpc

theorem insertChildrenAux_noEmpty {T : Type} {p : Nat} :
    ∀ (cs : List (String × (ValueCreatorParams T → T))) (m : InodeMapper T)
      (is : List Nat) (m' : InodeMapper T),
      InodeMapper.insertChildrenAux p m cs = some (is, m') →
      NoEmptyIndexExcept p m →
      NoEmptyIndexExcept p m' ∧
      ((∀ pc, fmGet m.data.children p = some pc → pc ≠ []) →
        ∀ pc, fmGet m'.data.children p = some pc → pc ≠ []) ∧
      (cs ≠ [] → ∀ pc, fmGet m'.data.children p = some pc → pc ≠ []) := by
  intro cs
  induction cs with
  | nil =>
    intro m is m' h hne
    simp only [InodeMapper.insertChildrenAux, Option.some.injEq, Prod.mk.injEq] at h
    rw [← h.2]
    exact ⟨hne, fun hp => hp, fun hcs => absurd rfl hcs⟩
  | cons cf rest ih =>
    intro m is m' h hne
    obtain ⟨c, f⟩ := cf
    simp only [InodeMapper.insertChildrenAux] at h
    split at h
    · exact absurd h (by simp)
    · rename_i i1 m1 hicu
      split at h
      · exact absurd h (by simp)
      · rename_i is2 m2 haux
        simp only [Option.some.injEq, Prod.mk.injEq] at h
        obtain ⟨hex1, hp1⟩ := icu_noEmptyExcept hicu hne
        obtain ⟨hex2, htrans, _⟩ := ih m1 is2 m2 haux hex1
        rw [← h.2]
        exact ⟨hex2, fun _ => htrans hp1, fun _ => htrans hp1⟩

/-- `insert_children` preserves the no-empty-index invariant whenever its
child list is non-empty (or the parent already had an index). -/
theorem insert_children_noEmpty {T : Type} {m : InodeMapper T} {p : Nat}
    {cs : List (String × (ValueCreatorParams T → T))} {is : List Nat}
    {m' : InodeMapper T}
    (h : m.insert_children p cs = some (Except.ok (is, m')))
    (hne : NoEmptyIndex m) (hcs : cs ≠ []) : NoEmptyIndex m' := by
  simp only [InodeMapper.insert_children] at h
  split at h
  · exact absurd h (by simp)
  · rcases haux : InodeMapper.insertChildrenAux p
        (match fmGet m.data.children p with
         | some _ => m
         | none =>
           { m with data := { m.data with
               children := fmInsert p [] m.data.children } }) cs with _ | ⟨is2, m2⟩ <;>
      rw [haux] at h
    · exact absurd h (by simp)
    · simp only [Option.map_some', Option.some.injEq, Except.ok.injEq,
        Prod.mk.injEq] at h
      have hm2 : m2 = m' := h.2
      subst hm2
      rcases hcp : fmGet m.data.children p with _ | pc0 <;> rw [hcp] at haux
      · -- reserve step installed an empty index for p
        obtain ⟨hex, _, hp⟩ := insertChildrenAux_noEmpty cs _ is2 m2 haux
          (by
            intro q pc hq hpc
            simp only [fmGet_fmInsert, if_neg hq] at hpc
            exact hne q pc hpc)
        intro q pc hpc
        by_cases hq : q = p
        · exact hp hcs pc (hq ▸ hpc)
        · exact hex q pc hq hpc
      · obtain ⟨hex, htrans, _⟩ := insertChildrenAux_noEmpty cs m is2 m2 haux
          (fun q pc _ => hne q pc)
        intro q pc hpc
        by_cases hq : q = p
        · exact htrans (fun pc1 => hne p pc1) pc (hq ▸ hpc)
        · exact hex q pc hq hpc

theorem ensureAux_noEmpty {T : Type} {g : ValueCreatorParams T → T} :
    ∀ (rest : List String) (m : InodeMapper T) (cache : List (List String × Nat))
      (pre : List String) (cur ni : Nat) (m' : InodeMapper T)
      (cache' : List (List String × Nat)),
      InodeMapper.ensureAux g m cache pre cur rest = some (ni, m', cache') →
      NoEmptyIndex m → NoEmptyIndex m' := by
  intro rest
  induction rest with
  | nil =>
    intro m cache pre cur ni m' cache' h hne
    simp only [InodeMapper.ensureAux, Option.some.injEq, Prod.mk.injEq] at h
    rw [← h.2.1]
    exact hne
  | cons comp rest ih =>
    intro m cache pre cur ni m' cache' h hne
    simp only [InodeMapper.ensureAux] at h
    split at h
    · exact ih m cache _ _ ni m' cache' h hne
    · split at h
      · exact absurd h (by simp)
      · rename_i ni1 m1 hstep
        refine ih m1 _ _ ni1 ni m' cache' h ?_
        -- the step either reused an existing child or inserted one
        split at hstep
        · rename_i pc hpc
          split at hstep
          · simp only [Option.some.injEq, Prod.mk.injEq] at hstep
            rw [← hstep.2]
            exact hne
          · exact icu_noEmpty hstep hne
        · exact icu_noEmpty hstep hne

theorem batchInsertAux_noEmpty {T : Type} {g : ValueCreatorParams T → T} :
    ∀ (entries : List (List String × (ValueCreatorParams T → T)))
      (m : InodeMapper T) (cache : List (List String × Nat))
      (m' : InodeMapper T) (cache' : List (List String × Nat)),
      InodeMapper.batchInsertAux g m cache entries = some (m', cache') →
      NoEmptyIndex m → NoEmptyIndex m' := by
  intro entries
  induction entries with
  | nil =>
    intro m cache m' cache' h hne
    simp only [InodeMapper.batchInsertAux, Option.some.injEq, Prod.mk.injEq] at h
    rw [← h.1]
    exact hne
  | cons pf rest ih =>
    intro m cache m' cache' h hne
    obtain ⟨path, f⟩ := pf
    simp only [InodeMapper.batchInsertAux] at h
    split at h
    · exact absurd h (by simp)
    · rename_i name hname
      split at h
      · exact absurd h (by simp)
      · rename_i pi m1 cache1 hens
        split at h
        · exact absurd h (by simp)
        · rename_i i2 m2 hicu
          refine ih m2 cache1 m' cache' h ?_
          have hne1 : NoEmptyIndex m1 := by
            simp only [InodeMapper.ensure_path_exists] at hens
            split at hens
            · exact absurd hens (by simp)
            · exact ensureAux_noEmpty path.dropLast m _ _ _ pi m1 cache1 hens hne
          exact icu_noEmpty hicu hne1

theorem batch_insert_noEmpty {T : Type} {m : InodeMapper T} {p : Nat}
    {es : List (List String × (ValueCreatorParams T → T))}
    {g : ValueCreatorParams T → T} {m' : InodeMapper T}
    (h : m.batch_insert p es g = some (Except.ok m'))
    (hne : NoEmptyIndex m) : NoEmptyIndex m' := by
  simp only [InodeMapper.batch_insert] at h
  split at h
  · exact absurd h (by simp)
  · rcases haux : InodeMapper.batchInsertAux g m
        (fmInsert ([] : List String) p [])
        (es.mergeSort fun x y => Nat.ble x.1.length y.1.length) with _ | ⟨m2, cache2⟩ <;>
      rw [haux] at h
    · exact absurd h (by simp)
    · simp only [Option.map_some', Option.some.injEq, Except.ok.injEq] at h
      rw [← h]
      exact batchInsertAux_noEmpty _ m _ m2 cache2 haux hne

theorem rename_noEmpty {T : Type} {m : InodeMapper T} {p : Nat} {n : String}
    {p' : Nat} {n' : String} {r : Option (Nat × T)} {m' : InodeMapper T}
    (h : m.rename p n p' n' = Except.ok (r, m')) (hne : NoEmptyIndex m) :
    NoEmptyIndex m' := by
  simp only [InodeMapper.rename] at h
  split at h
  · exact absurd h (by simp)
  · split at h
    · exact absurd h (by simp)
    · split at h
      · exact absurd h (by simp)
      · rename_i pc hpc
        split at h
        · exact absurd h (by simp)
        · rename_i child hchild
          simp only [Except.ok.injEq, Prod.mk.injEq] at h
          rw [← h.2]
          intro q qc hq
          simp only at hq
          rw [fmGet_fmInsert] at hq
          by_cases hqp' : q = p'
          · rw [if_pos hqp'] at hq
            simp only [Option.some.injEq] at hq
            rw [← hq]
            simp [fmInsert]
          · rw [if_neg hqp'] at hq
            split at hq
            · rw [fmGet_fmErase] at hq
              split at hq
              · exact absurd hq (by simp)
              · exact hne q qc hq
            · rename_i hpcne
              rw [fmGet_fmInsert] at hq
              by_cases hqp : q = p
              · rw [if_pos hqp] at hq
                simp only [Option.some.injEq] at hq
                rw [← hq]
                exact hpcne
              · rw [if_neg hqp] at hq
                exact hne q qc hq

/-- `removeStep` preserves the no-empty-index invariant when the cascade
recursion does. -/
theorem removeStep_noEmpty {T : Type}
    {R : InodeMapper T → Nat → Option (Option T × InodeMapper T)}
    (hR : ∀ m i r m', R m i = some (r, m') → NoEmptyIndex m → NoEmptyIndex m') :
    ∀ m i r m', InodeMapper.removeStep R m i = some (r, m') →
      NoEmptyIndex m → NoEmptyIndex m' := by
  intro m i r m' h hne
  have hfold : ∀ (cs : List Nat) (m0 m3 : InodeMapper T),
      cs.foldlM (fun acc c => (R acc c).map Prod.snd) m0 = some m3 →
      NoEmptyIndex m0 → NoEmptyIndex m3 := by
    intro cs
    induction cs with
    | nil =>
      intro m0 m3 hf hne0
      simp only [List.foldlM_nil, Option.pure_def, Option.some.injEq] at hf
      exact hf ▸ hne0
    | cons c cs ihc =>
      intro m0 m3 hf hne0
      simp only [List.foldlM_cons, Option.bind_eq_bind] at hf
      rcases hRm : R m0 c with _ | ⟨r1, m1⟩ <;> rw [hRm] at hf
      · exact absurd hf (by simp)
      · have hf' : cs.foldlM (fun acc c => (R acc c).map Prod.snd) m1 = some m3 := by
          simpa using hf
        exact ihc m1 m3 hf' (hR m0 c r1 m1 hRm hne0)
  simp only [InodeMapper.removeStep] at h
  split at h
  · exact absurd h (by simp)
  · split at h
    · simp only [Option.some.injEq, Prod.mk.injEq] at h
      rw [← h.2]
      exact hne
    · rename_i v hv
      have hne1 : NoEmptyIndex (T := T)
          ⟨⟨fmErase m.data.inodes i,
            match fmGet m.data.children v.parent with
            | none => m.data.children
            | some pc =>
              if fmErase pc v.name = [] then fmErase m.data.children v.parent
              else fmInsert v.parent (fmErase pc v.name) m.data.children⟩,
            m.root_inode, m.next_inode⟩ := by
        intro q qc hq
        simp only at hq
        split at hq
        · exact hne q qc hq
        · rename_i pc hpc
          split at hq
          · rw [fmGet_fmErase] at hq
            split at hq
            · exact absurd hq (by simp)
            · exact hne q qc hq
          · rename_i hpcne
            rw [fmGet_fmInsert] at hq
            by_cases hqp : q = v.parent
            · rw [if_pos hqp] at hq
              simp only [Option.some.injEq] at hq
              rw [← hq]
              exact hpcne
            · rw [if_neg hqp] at hq
              exact hne q qc hq
      split at h
      · simp only [Option.some.injEq, Prod.mk.injEq] at h
        rw [← h.2]
        exact hne1
      · split at h
        · exact absurd h (by simp)
        · rename_i cs hcs m3 hfold3
          simp only [Option.some.injEq, Prod.mk.injEq] at h
          rw [← h.2]
          refine hfold _ _ _ hfold3 ?_
          intro q qc hq
          simp only at hq
          rw [fmGet_fmErase] at hq
          split at hq
          · exact absurd hq (by simp)
          · exact hne1 q qc hq

theorem removeAux_noEmpty {T : Type} :
    ∀ (fuel : Nat) (m : InodeMapper T) (i : Nat) (r : Option T) (m' : InodeMapper T),
      InodeMapper.removeAux fuel m i = some (r, m') →
      NoEmptyIndex m → NoEmptyIndex m' := by
  intro fuel
  induction fuel with
  | zero =>
    exact removeStep_noEmpty (fun m i r m' h => absurd h (by simp))
  | succ fuel ih =>
    exact removeStep_noEmpty ih

/-! ### Helper lemmas for the edge/record consistency invariant (C2) -/

theorem presMono_refl {T : Type} (m : InodeMapper T) : PresMono m m :=
  fun j w h => ⟨w, h⟩

theorem presMono_trans {T : Type} {a b c : InodeMapper T}
    (h1 : PresMono a b) (h2 : PresMono b c) : PresMono a c := by
  intro j w h
  obtain ⟨w1, hw1⟩ := h1 j w h
  exact h2 j w1 hw1

theorem wf_new {T : Type} (d : T) : MapperWF (InodeMapper.new d) := by
  constructor
  · exact ⟨d, by simp [InodeMapper.new, ROOT_INODE, ROOT_INO]⟩
  · intro p pc hpc
    exact absurd hpc (by simp [InodeMapper.new])
  · intro p pc n i hpc
    exact absurd hpc (by simp [InodeMapper.new])
  · intro p pc n i hpc
    exact absurd hpc (by simp [InodeMapper.new])
  · intro i v hv
    simp only [InodeMapper.new, fmGet_fmInsert] at hv ⊢
    split at hv
    · omega
    · exact absurd hv (by simp)

/-- Full specification of a successful `insert_child_unchecked` at a
present parent: well-formedness is preserved, record presence is
monotone, the allocator never decreases, and the returned inode is
present with the edge `(p, c) → i` installed. -/
theorem icu_wf {T : Type} {m : InodeMapper T} {p : Nat} {c : String}
    {f : ValueCreatorParams T → T} {i : Nat} {m' : InodeMapper T}
    (h : m.insert_child_unchecked p c f = some (i, m'))
    (hwf : MapperWF m) (hp : ∃ pv, fmGet m.data.inodes p = some pv) :
    MapperWF m' ∧ PresMono m m' ∧ m.next_inode ≤ m'.next_inode ∧
      (∃ w, fmGet m'.data.inodes i = some w) := by
  obtain ⟨pv, hpv⟩ := hp
  have hroot : ∃ d0, fmGet m.data.inodes ROOT_INODE = some ⟨ROOT_INODE, "", d0⟩ :=
    hwf.root_rec
  simp only [InodeMapper.insert_child_unchecked] at h
  split at h
  · -- fresh-child branch
    rename_i hnone
    simp only [Option.some.injEq, Prod.mk.injEq] at h
    obtain ⟨hi, hm'⟩ := h
    subst hi
    have hifresh : fmGet m.data.inodes m.next_inode = none := by
      rcases hg : fmGet m.data.inodes m.next_inode with _ | w
      · rfl
      · exact absurd (hwf.fresh _ w hg) (lt_irrefl _)
    have hpne : p ≠ m.next_inode := by
      intro hcontra
      rw [hcontra, hifresh] at hpv
      exact absurd hpv (by simp)
    have hrne : ROOT_INODE ≠ m.next_inode := by
      obtain ⟨d0, hd0⟩ := hroot
      intro hcontra
      rw [hcontra, hifresh] at hd0
      exact absurd hd0 (by simp)
    have hmono : PresMono m m' := by
      intro j w hj
      rw [← hm']
      simp only [fmGet_fmInsert]
      have hjne : j ≠ m.next_inode := by
        intro hcontra
        rw [hcontra, hifresh] at hj
        exact absurd hj (by simp)
      rw [if_neg hjne]
      exact ⟨w, hj⟩
    refine ⟨?_, hmono, ?_, ?_⟩
    · constructor
      · obtain ⟨d0, hd0⟩ := hroot
        refine ⟨d0, ?_⟩
        rw [← hm']
        simp only [fmGet_fmInsert]
        rw [if_neg hrne]
        exact hd0
      · intro q pc hq
        rw [← hm'] at hq
        simp only [fmGet_fmInsert] at hq
        rw [← hm']
        simp only [fmGet_fmInsert]
        by_cases hqp : q = p
        · subst hqp
          rw [if_neg hpne]
          exact ⟨pv, hpv⟩
        · rw [if_neg hqp] at hq
          obtain ⟨w, hw⟩ := hwf.keys_present q pc hq
          have hqne : q ≠ m.next_inode := by
            intro hcontra
            rw [hcontra, hifresh] at hw
            exact absurd hw (by simp)
          rw [if_neg hqne]
          exact ⟨w, hw⟩
      · intro q pc n j hq hj
        rw [← hm'] at hq
        simp only [fmGet_fmInsert] at hq
        rw [← hm']
        simp only [fmGet_fmInsert]
        by_cases hqp : q = p
        · rw [if_pos hqp] at hq
          simp only [Option.some.injEq] at hq
          rw [← hq] at hj
          simp only [fmGet_fmInsert] at hj
          by_cases hnc : n = c
          · rw [if_pos hnc] at hj
            simp only [Option.some.injEq] at hj
            rw [← hj, if_pos rfl]
            exact ⟨⟨p, c, f ⟨m.next_inode, p, c, none⟩⟩, rfl, hqp.symm, hnc.symm⟩
          · rw [if_neg hnc] at hj
            rcases hcp : fmGet m.data.children p with _ | pc1
            · rw [hcp] at hj
              exact absurd hj (by simp [fmGet])
            · rw [hcp] at hj
              obtain ⟨w, hw, hwp, hwn⟩ := hwf.edge_rec p pc1 n j hcp hj
              have hjne : j ≠ m.next_inode := by
                intro hcontra
                rw [hcontra, hifresh] at hw
                exact absurd hw (by simp)
              rw [if_neg hjne]
              exact ⟨w, hw, hwp.trans hqp.symm, hwn⟩
        · rw [if_neg hqp] at hq
          obtain ⟨w, hw, hwp, hwn⟩ := hwf.edge_rec q pc n j hq hj
          have hjne : j ≠ m.next_inode := by
            intro hcontra
            rw [hcontra, hifresh] at hw
            exact absurd hw (by simp)
          rw [if_neg hjne]
          exact ⟨w, hw, hwp, hwn⟩
      · intro q pc n j hq hj
        rw [← hm'] at hq
        simp only [fmGet_fmInsert] at hq
        by_cases hqp : q = p
        · rw [if_pos hqp] at hq
          simp only [Option.some.injEq] at hq
          rw [← hq] at hj
          simp only [fmGet_fmInsert] at hj
          by_cases hnc : n = c
          · rw [if_pos hnc] at hj
            simp only [Option.some.injEq] at hj
            rw [← hj]
            exact fun hcontra => hrne hcontra.symm
          · rw [if_neg hnc] at hj
            rcases hcp : fmGet m.data.children p with _ | pc1
            · rw [hcp] at hj
              exact absurd hj (by simp [fmGet])
            · rw [hcp] at hj
              exact hwf.edge_ne_root p pc1 n j hcp hj
        · rw [if_neg hqp] at hq
          exact hwf.edge_ne_root q pc n j hq hj
      · intro j w hj
        rw [← hm'] at hj ⊢
        simp only [fmGet_fmInsert] at hj
        simp only []
        by_cases hji : j = m.next_inode
        · omega
        · rw [if_neg hji] at hj
          have := hwf.fresh j w hj
          omega
    · rw [← hm']
      simp only []
      omega
    · rw [← hm']
      simp only [fmGet_fmInsert, if_pos rfl]
      exact ⟨_, rfl⟩
  · -- existing-child branch
    rename_i i0 hi0
    split at h
    · exact absurd h (by simp)
    · rename_i old hold
      simp only [Option.some.injEq, Prod.mk.injEq] at h
      obtain ⟨hi, hm'⟩ := h
      rw [hi] at hi0 hold hm'
      obtain ⟨pc1, hcp, hedge⟩ :
          ∃ pc1, fmGet m.data.children p = some pc1 ∧ fmGet pc1 c = some i := by
        rcases hcp : fmGet m.data.children p with _ | pc1
        · rw [hcp] at hi0
          exact absurd hi0 (by simp [fmGet])
        · rw [hcp] at hi0
          exact ⟨pc1, rfl, hi0⟩
      have hine : i ≠ ROOT_INODE := hwf.edge_ne_root p pc1 c i hcp hedge
      obtain ⟨w0, hw0, hw0p, hw0n⟩ := hwf.edge_rec p pc1 c i hcp hedge
      have hw0old : w0 = old := by
        rw [hold] at hw0
        exact (Option.some_inj.mp hw0).symm
      have hmono : PresMono m m' := by
        intro j w hj
        rw [← hm']
        simp only [InodeMapper.setRecord, fmGet_fmInsert]
        by_cases hji : j = i
        · rw [if_pos hji]
          exact ⟨_, rfl⟩
        · rw [if_neg hji]
          exact ⟨w, hj⟩
      refine ⟨?_, hmono, by rw [← hm']; exact le_refl _, ?_⟩
      · constructor
        · obtain ⟨d0, hd0⟩ := hroot
          refine ⟨d0, ?_⟩
          rw [← hm']
          simp only [InodeMapper.setRecord, fmGet_fmInsert]
          rw [if_neg (fun hcontra => hine hcontra.symm)]
          exact hd0
        · intro q pc hq
          rw [← hm'] at hq
          simp only [InodeMapper.setRecord] at hq
          obtain ⟨w, hw⟩ := hwf.keys_present q pc hq
          rw [← hm']
          simp only [InodeMapper.setRecord, fmGet_fmInsert]
          by_cases hqi : q = i
          · rw [if_pos hqi]
            exact ⟨_, rfl⟩
          · rw [if_neg hqi]
            exact ⟨w, hw⟩
        · intro q pc n j hq hj
          rw [← hm'] at hq
          simp only [InodeMapper.setRecord] at hq
          obtain ⟨w, hw, hwp, hwn⟩ := hwf.edge_rec q pc n j hq hj
          rw [← hm']
          simp only [InodeMapper.setRecord, fmGet_fmInsert]
          by_cases hji : j = i
          · subst hji
            rw [if_pos rfl]
            refine ⟨⟨old.parent, old.name, f ⟨j, p, c, some old.data⟩⟩, rfl, ?_, ?_⟩
            · have : w = old := by
                rw [hold] at hw
                exact (Option.some_inj.mp hw).symm
              rw [← hwp, this]
            · have : w = old := by
                rw [hold] at hw
                exact (Option.some_inj.mp hw).symm
              rw [← hwn, this]
          · rw [if_neg hji]
            exact ⟨w, hw, hwp, hwn⟩
        · intro q pc n j hq hj
          rw [← hm'] at hq
          simp only [InodeMapper.setRecord] at hq
          exact hwf.edge_ne_root q pc n j hq hj
        · intro j w hj
          rw [← hm'] at hj ⊢
          simp only [InodeMapper.setRecord, fmGet_fmInsert] at hj
          simp only [InodeMapper.setRecord]
          by_cases hji : j = i
          · subst hji
            have := hwf.fresh j old hold
            exact this
          · rw [if_neg hji] at hj
            exact hwf.fresh j w hj
      · rw [← hm']
        simp only [InodeMapper.setRecord, fmGet_fmInsert, if_pos rfl]
        exact ⟨_, rfl⟩

theorem insert_child_wf {T : Type} {m : InodeMapper T} {p : Nat} {c : String}
    {f : ValueCreatorParams T → T} {i : Nat} {m' : InodeMapper T}
    (h : m.insert_child p c f = some (Except.ok (i, m'))) (hwf : MapperWF m) :
    MapperWF m' := by
  simp only [InodeMapper.insert_child] at h
  split at h
  · exact absurd h (by simp)
  · rename_i pv hpv
    rcases hicu : m.insert_child_unchecked p c f with _ | ⟨i2, m2⟩ <;>
      rw [hicu] at h
    · exact absurd h (by simp)
    · simp only [Option.map_some', Option.some.injEq, Except.ok.injEq,
        Prod.mk.injEq] at h
      exact h.2 ▸ (icu_wf hicu hwf ⟨pv, hpv⟩).1

theorem insertChildrenAux_wf {T : Type} {p : Nat} :
    ∀ (cs : List (String × (ValueCreatorParams T → T))) (m : InodeMapper T)
      (is : List Nat) (m' : InodeMapper T),
      InodeMapper.insertChildrenAux p m cs = some (is, m') →
      MapperWF m → (∃ pv, fmGet m.data.inodes p = some pv) →
      MapperWF m' ∧ PresMono m m' := by
  intro cs
  induction cs with
  | nil =>
    intro m is m' h hwf hp
    simp only [InodeMapper.insertChildrenAux, Option.some.injEq,
      Prod.mk.injEq] at h
    exact h.2 ▸ ⟨hwf, presMono_refl m⟩
  | cons cf rest ih =>
    intro m is m' h hwf hp
    obtain ⟨c, f⟩ := cf
    simp only [InodeMapper.insertChildrenAux] at h
    split at h
    · exact absurd h (by simp)
    · rename_i i1 m1 hicu
      split at h
      · exact absurd h (by simp)
      · rename_i is2 m2 haux
        simp only [Option.some.injEq, Prod.mk.injEq] at h
        obtain ⟨hwf1, hmono1, _, _⟩ := icu_wf hicu hwf hp
        obtain ⟨pv, hpv⟩ := hp
        obtain ⟨pv1, hpv1⟩ := hmono1 p pv hpv
        obtain ⟨hwf2, hmono2⟩ := ih m1 is2 m2 haux hwf1 ⟨pv1, hpv1⟩
        exact h.2 ▸ ⟨hwf2, presMono_trans hmono1 hmono2⟩

/-- The reserve step of `insert_children` (installing an empty child index
for a present parent) preserves well-formedness. -/
theorem reserve_wf {T : Type} {m : InodeMapper T} {p : Nat}
    (hwf : MapperWF m) (hp : ∃ pv, fmGet m.data.inodes p = some pv) :
    MapperWF { m with data :=
      { m.data with children := fmInsert p [] m.data.children } } := by
  constructor
  · exact hwf.root_rec
  · intro q pc hq
    simp only [fmGet_fmInsert] at hq
    by_cases hqp : q = p
    · exact hqp ▸ hp
    · rw [if_neg hqp] at hq
      exact hwf.keys_present q pc hq
  · intro q pc n j hq hj
    simp only [fmGet_fmInsert] at hq
    by_cases hqp : q = p
    · rw [if_pos hqp] at hq
      simp only [Option.some.injEq] at hq
      rw [← hq] at hj
      exact absurd hj (by simp)
    · rw [if_neg hqp] at hq
      exact hwf.edge_rec q pc n j hq hj
  · intro q pc n j hq hj
    simp only [fmGet_fmInsert] at hq
    by_cases hqp : q = p
    · rw [if_pos hqp] at hq
      simp only [Option.some.injEq] at hq
      rw [← hq] at hj
      exact absurd hj (by simp)
    · rw [if_neg hqp] at hq
      exact hwf.edge_ne_root q pc n j hq hj
  · exact hwf.fresh

theorem insert_children_wf {T : Type} {m : InodeMapper T} {p : Nat}
    {cs : List (String × (ValueCreatorParams T → T))} {is : List Nat}
    {m' : InodeMapper T}
    (h : m.insert_children p cs = some (Except.ok (is, m')))
    (hwf : MapperWF m) : MapperWF m' := by
  simp only [InodeMapper.insert_children] at h
  split at h
  · exact absurd h (by simp)
  · rename_i pv hpv
    rcases haux : InodeMapper.insertChildrenAux p
        (match fmGet m.data.children p with
         | some _ => m
         | none =>
           { m with data := { m.data with
               children := fmInsert p [] m.data.children } }) cs with _ | ⟨is2, m2⟩ <;>
      rw [haux] at h
    · exact absurd h (by simp)
    · simp only [Option.map_some', Option.some.injEq, Except.ok.injEq,
        Prod.mk.injEq] at h
      rcases hcp : fmGet m.data.children p with _ | pc0 <;> rw [hcp] at haux

      · exact h.2 ▸ (insertChildrenAux_wf cs _ is2 m2 haux
          (reserve_wf hwf ⟨pv, hpv⟩) ⟨pv, hpv⟩).1
      · exact h.2 ▸ (insertChildrenAux_wf cs m is2 m2 haux hwf ⟨pv, hpv⟩).1

theorem ensureAux_wf {T : Type} {g : ValueCreatorParams T → T} :
    ∀ (rest : List String) (m : InodeMapper T) (cache : List (List String × Nat))
      (pre : List String) (cur ni : Nat) (m2 : InodeMapper T)
      (cache2 : List (List String × Nat)),
      InodeMapper.ensureAux g m cache pre cur rest = some (ni, m2, cache2) →
      MapperWF m → (∃ v, fmGet m.data.inodes cur = some v) → CacheOK m cache →
      MapperWF m2 ∧ PresMono m m2 ∧ (∃ v, fmGet m2.data.inodes ni = some v) ∧
        CacheOK m2 cache2 := by
  intro rest
  induction rest with
  | nil =>
    intro m cache pre cur ni m2 cache2 h hwf hcur hcache
    simp only [InodeMapper.ensureAux, Option.some.injEq, Prod.mk.injEq] at h
    obtain ⟨h1, h2, h3⟩ := h
    subst h1
    subst h2
    subst h3
    exact ⟨hwf, presMono_refl m, hcur, hcache⟩
  | cons comp rest ih =>
    intro m cache pre cur ni m2 cache2 h hwf hcur hcache
    simp only [InodeMapper.ensureAux] at h
    split at h
    · rename_i i1 hi1
      exact ih m cache _ i1 ni m2 cache2 h hwf (hcache _ i1 hi1) hcache
    · split at h
      · exact absurd h (by simp)
      · rename_i ni1 m1 hstep
        have hstep' : MapperWF m1 ∧ PresMono m m1 ∧
            (∃ v, fmGet m1.data.inodes ni1 = some v) := by
          split at hstep
          · rename_i pc hpc
            split at hstep
            · rename_i ci hci
              simp only [Option.some.injEq, Prod.mk.injEq] at hstep
              obtain ⟨hni1, hm1⟩ := hstep
              obtain ⟨w, hw, _, _⟩ := hwf.edge_rec cur pc comp ci hpc hci
              exact hm1 ▸ ⟨hwf, presMono_refl m, hni1 ▸ ⟨w, hw⟩⟩
            · obtain ⟨hwf1, hmono1, _, hni1⟩ := icu_wf hstep hwf hcur
              exact ⟨hwf1, hmono1, hni1⟩
          · obtain ⟨hwf1, hmono1, _, hni1⟩ := icu_wf hstep hwf hcur
            exact ⟨hwf1, hmono1, hni1⟩
        obtain ⟨hwf1, hmono1, hni1⟩ := hstep'
        have hcache1 : CacheOK m1 (fmInsert (pre ++ [comp]) ni1 cache) := by
          intro pth q hpth
          rw [fmGet_fmInsert] at hpth
          by_cases hpp : pth = pre ++ [comp]
          · rw [if_pos hpp] at hpth
            simp only [Option.some.injEq] at hpth
            exact hpth ▸ hni1
          · rw [if_neg hpp] at hpth
            obtain ⟨w, hw⟩ := hcache pth q hpth
            exact hmono1 q w hw
        obtain ⟨hwf2, hmono2, hni2, hcache2⟩ :=
          ih m1 _ _ ni1 ni m2 cache2 h hwf1 hni1 hcache1
        exact ⟨hwf2, presMono_trans hmono1 hmono2, hni2, hcache2⟩

theorem batchInsertAux_wf {T : Type} {g : ValueCreatorParams T → T} :
    ∀ (entries : List (List String × (ValueCreatorParams T → T)))
      (m : InodeMapper T) (cache : List (List String × Nat))
      (m2 : InodeMapper T) (cache2 : List (List String × Nat)),
      InodeMapper.batchInsertAux g m cache entries = some (m2, cache2) →
      MapperWF m → CacheOK m cache → MapperWF m2 := by
  intro entries
  induction entries with
  | nil =>
    intro m cache m2 cache2 h hwf hcache
    simp only [InodeMapper.batchInsertAux, Option.some.injEq, Prod.mk.injEq] at h
    exact h.1 ▸ hwf
  | cons pf rest ih =>
    intro m cache m2 cache2 h hwf hcache
    obtain ⟨path, f⟩ := pf
    simp only [InodeMapper.batchInsertAux] at h
    split at h
    · exact absurd h (by simp)
    · rename_i name hname
      split at h
      · exact absurd h (by simp)
      · rename_i pi m1 cache1 hens
        split at h
        · exact absurd h (by simp)
        · rename_i i2 mI hicu
          simp only [InodeMapper.ensure_path_exists] at hens
          split at hens
          · exact absurd hens (by simp)
          · rename_i rootI hrootI
            obtain ⟨hwf1, hmono1, hpi, hcache1⟩ :=
              ensureAux_wf path.dropLast m cache [] rootI pi m1 cache1 hens hwf
                (hcache _ rootI hrootI) hcache
            obtain ⟨hwfI, hmonoI, _, _⟩ := icu_wf hicu hwf1 hpi
            refine ih mI cache1 m2 cache2 h hwfI ?_
            intro pth q hpth
            obtain ⟨w, hw⟩ := hcache1 pth q hpth
            exact hmonoI q w hw

theorem batch_insert_wf {T : Type} {m : InodeMapper T} {p : Nat}
    {es : List (List String × (ValueCreatorParams T → T))}
    {g : ValueCreatorParams T → T} {m' : InodeMapper T}
    (h : m.batch_insert p es g = some (Except.ok m')) (hwf : MapperWF m) :
    MapperWF m' := by
  simp only [InodeMapper.batch_insert] at h
  split at h
  · exact absurd h (by simp)
  · rename_i pv hpv
    rcases haux : InodeMapper.batchInsertAux g m
        (fmInsert ([] : List String) p [])
        (es.mergeSort fun x y => Nat.ble x.1.length y.1.length) with _ | ⟨m2, cache2⟩ <;>
      rw [haux] at h
    · exact absurd h (by simp)
    · simp only [Option.map_some', Option.some.injEq, Except.ok.injEq] at h
      refine h ▸ batchInsertAux_wf _ m _ m2 cache2 haux hwf ?_
      intro pth q hpth
      rw [fmGet_fmInsert] at hpth
      by_cases hpp : pth = ([] : List String)
      · rw [if_pos hpp] at hpth
        simp only [Option.some.injEq] at hpth
        exact hpth ▸ ⟨pv, hpv⟩
      · rw [if_neg hpp] at hpth
        exact absurd hpth (by simp)

theorem fmGet_getD_some {α β : Type} [DecidableEq α]
    {o : Option (List (α × β))} {k : α} {j : β}
    (h : fmGet (o.getD []) k = some j) : ∃ l, o = some l ∧ fmGet l k = some j := by
  rcases o with _ | l
  · exact absurd h (by simp)
  · exact ⟨l, rfl, h⟩

theorem rename_wf {T : Type} {m : InodeMapper T} {p : Nat} {n : String}
    {p' : Nat} {n' : String} {r : Option (Nat × T)} {m' : InodeMapper T}
    (h : m.rename p n p' n' = Except.ok (r, m')) (hwf : MapperWF m) :
    MapperWF m' := by
  simp only [InodeMapper.rename] at h
  split at h
  · exact absurd h (by simp)
  · rename_i pv0 hpv0
    split at h
    · exact absurd h (by simp)
    · rename_i npv0 hnpv0
      split at h
      · exact absurd h (by simp)
      · rename_i pc hpc
        split at h
        · exact absurd h (by simp)
        · rename_i child hchild
          obtain ⟨cv, hcv, hcvp, hcvn⟩ := hwf.edge_rec p pc n child hpc hchild
          have hchildroot : child ≠ ROOT_INODE :=
            hwf.edge_ne_root p pc n child hpc hchild
          have huniq : ∀ q qc nm, fmGet m.data.children q = some qc →
              fmGet qc nm = some child → q = p ∧ nm = n := by
            intro q qc nm hq hnm
            obtain ⟨w, hw, hwp, hwn⟩ := hwf.edge_rec q qc nm child hq hnm
            have hwcv : w = cv := Option.some_inj.mp (hw.symm.trans hcv)
            constructor
            · rw [← hwp, hwcv]
              exact hcvp
            · rw [← hwn, hwcv]
              exact hcvn
          simp only [hcv] at h
          simp only [Except.ok.injEq, Prod.mk.injEq] at h
          obtain ⟨hr, hm'⟩ := h
          subst hm'
          have hget1 : ∀ j, j ≠ child →
              fmGet (fmInsert child ⟨p', n', cv.data⟩ m.data.inodes) j =
                fmGet m.data.inodes j := by
            intro j hj
            rw [fmGet_fmInsert, if_neg hj]
          have hpm : ∀ j (w : InodeValue T), fmGet m.data.inodes j = some w →
              ∃ w2, fmGet (fmInsert child ⟨p', n', cv.data⟩ m.data.inodes) j =
                some w2 := by
            intro j w hw
            by_cases hj : j = child
            · rw [fmGet_fmInsert, if_pos hj]
              exact ⟨_, rfl⟩
            · rw [fmGet_fmInsert, if_neg hj]
              exact ⟨w, hw⟩
          have hch1 : ∀ q qc,
              fmGet (if fmErase pc n = [] then fmErase m.data.children p
                else fmInsert p (fmErase pc n) m.data.children) q = some qc →
              (q = p ∧ qc = fmErase pc n) ∨
              (q ≠ p ∧ fmGet m.data.children q = some qc) := by
            intro q qc hq
            by_cases hqp : q = p
            · left
              refine ⟨hqp, ?_⟩
              split at hq
              · rw [fmGet_fmErase, if_pos hqp] at hq
                exact absurd hq (by simp)
              · rw [fmGet_fmInsert, if_pos hqp] at hq
                exact (Option.some_inj.mp hq).symm
            · right
              refine ⟨hqp, ?_⟩
              split at hq
              · rw [fmGet_fmErase, if_neg hqp] at hq
                exact hq
              · rw [fmGet_fmInsert, if_neg hqp] at hq
                exact hq
          have hedge1 : ∀ q qc nm j,
              fmGet (if fmErase pc n = [] then fmErase m.data.children p
                else fmInsert p (fmErase pc n) m.data.children) q = some qc →
              fmGet qc nm = some j →
              ∃ qc0, fmGet m.data.children q = some qc0 ∧
                fmGet qc0 nm = some j ∧ ¬(q = p ∧ nm = n) := by
            intro q qc nm j hq hj
            rcases hch1 q qc hq with ⟨hqp, hqc⟩ | ⟨hqp, hq0⟩
            · subst hqp
              rw [hqc, fmGet_fmErase] at hj
              by_cases hnm : nm = n
              · rw [if_pos hnm] at hj
                exact absurd hj (by simp)
              · rw [if_neg hnm] at hj
                exact ⟨pc, hpc, hj, fun hand => hnm hand.2⟩
            · exact ⟨qc, hq0, hj, fun hand => hqp hand.1⟩
          constructor
          · obtain ⟨d0, hd0⟩ := hwf.root_rec
            refine ⟨d0, ?_⟩
            rw [hget1 ROOT_INODE (fun hc => hchildroot hc.symm)]
            exact hd0
          · intro q qc hq
            rw [fmGet_fmInsert] at hq
            by_cases hqp' : q = p'
            · rw [hqp']
              exact hpm p' npv0 hnpv0
            · rw [if_neg hqp'] at hq
              rcases hch1 q qc hq with ⟨hqp, _⟩ | ⟨_, hq0⟩
              · rw [hqp]
                exact hpm p pv0 hpv0
              · obtain ⟨w, hw⟩ := hwf.keys_present q qc hq0
                exact hpm q w hw
          · intro q qc nm j hq hj
            rw [fmGet_fmInsert] at hq
            by_cases hqp' : q = p'
            · rw [if_pos hqp'] at hq
              simp only [Option.some.injEq] at hq
              rw [← hq] at hj
              rw [fmGet_fmInsert] at hj
              by_cases hnm : nm = n'
              · rw [if_pos hnm] at hj
                simp only [Option.some.injEq] at hj
                rw [← hj, fmGet_fmInsert, if_pos rfl]
                exact ⟨⟨p', n', cv.data⟩, rfl, hqp'.symm, hnm.symm⟩
              · rw [if_neg hnm] at hj
                obtain ⟨qc1, hq1, hj1⟩ := fmGet_getD_some hj
                obtain ⟨qc0, hq0, hj0, hnotpn⟩ := hedge1 p' qc1 nm j hq1 hj1
                have hjchild : j ≠ child :=
                  fun hjc => hnotpn (huniq p' qc0 nm hq0 (hjc ▸ hj0))
                obtain ⟨w, hw, hwp, hwn⟩ := hwf.edge_rec p' qc0 nm j hq0 hj0
                refine ⟨w, ?_, hwp.trans hqp'.symm, hwn⟩
                rw [hget1 j hjchild]
                exact hw
            · rw [if_neg hqp'] at hq
              obtain ⟨qc0, hq0, hj0, hnotpn⟩ := hedge1 q qc nm j hq hj
              have hjchild : j ≠ child :=
                fun hjc => hnotpn (huniq q qc0 nm hq0 (hjc ▸ hj0))
              obtain ⟨w, hw, hwp, hwn⟩ := hwf.edge_rec q qc0 nm j hq0 hj0
              refine ⟨w, ?_, hwp, hwn⟩
              rw [hget1 j hjchild]
              exact hw
          · intro q qc nm j hq hj
            rw [fmGet_fmInsert] at hq
            by_cases hqp' : q = p'
            · rw [if_pos hqp'] at hq
              simp only [Option.some.injEq] at hq
              rw [← hq] at hj
              rw [fmGet_fmInsert] at hj
              by_cases hnm : nm = n'
              · rw [if_pos hnm] at hj
                simp only [Option.some.injEq] at hj
                rw [← hj]
                exact hchildroot
              · rw [if_neg hnm] at hj
                obtain ⟨qc1, hq1, hj1⟩ := fmGet_getD_some hj
                obtain ⟨qc0, hq0, hj0, _⟩ := hedge1 p' qc1 nm j hq1 hj1
                exact hwf.edge_ne_root p' qc0 nm j hq0 hj0
            · rw [if_neg hqp'] at hq
              obtain ⟨qc0, hq0, hj0, _⟩ := hedge1 q qc nm j hq hj
              exact hwf.edge_ne_root q qc0 nm j hq0 hj0
          · intro j w hj
            rw [fmGet_fmInsert] at hj
            by_cases hjc : j = child
            · rw [hjc]
              exact hwf.fresh child cv hcv
            · rw [if_neg hjc] at hj
              exact hwf.fresh j w hj

/-- The cascade recursion preserves well-formedness. -/
def RemWF {T : Type}
    (R : InodeMapper T → Nat → Option (Option T × InodeMapper T)) : Prop :=
  ∀ m i r m', R m i = some (r, m') → MapperWF m → MapperWF m'

theorem foldRemove_wf {T : Type}
    {R : InodeMapper T → Nat → Option (Option T × InodeMapper T)}
    (hR : RemWF R) :
    ∀ (cs : List Nat) (m m3 : InodeMapper T),
      cs.foldlM (fun acc c => (R acc c).map Prod.snd) m = some m3 →
      MapperWF m → MapperWF m3 := by
  intro cs
  induction cs with
  | nil =>
    intro m m3 h hwf
    simp only [List.foldlM_nil, Option.pure_def, Option.some.injEq] at h
    exact h ▸ hwf
  | cons c cs ih =>
    intro m m3 h hwf
    simp only [List.foldlM_cons, Option.bind_eq_bind] at h
    rcases hRm : R m c with _ | ⟨r1, m1⟩ <;> rw [hRm] at h
    · exact absurd h (by simp)
    · have h' : cs.foldlM (fun acc c => (R acc c).map Prod.snd) m1 = some m3 := by
        simpa using h
      exact ih m1 m3 h' (hR m c r1 m1 hRm hwf)

theorem removeStep_wf {T : Type}
    {R : InodeMapper T → Nat → Option (Option T × InodeMapper T)}
    (hR : RemWF R) : RemWF (InodeMapper.removeStep R) := by
  intro m i r m' h hwf
  simp only [InodeMapper.removeStep] at h
  split at h
  · exact absurd h (by simp)
  · rename_i hine
    split at h
    · simp only [Option.some.injEq, Prod.mk.injEq] at h
      exact h.2 ▸ hwf
    · rename_i v hv
      have huniq : ∀ q qc nm, fmGet m.data.children q = some qc →
          fmGet qc nm = some i → q = v.parent ∧ nm = v.name := by
        intro q qc nm hq hnm
        obtain ⟨w, hw, hwp, hwn⟩ := hwf.edge_rec q qc nm i hq hnm
        have hwv : w = v := Option.some_inj.mp (hw.symm.trans hv)
        constructor
        · rw [← hwp, hwv]
        · rw [← hwn, hwv]
      have hkeys1 : ∀ q qc,
          fmGet (match fmGet m.data.children v.parent with
            | none => m.data.children
            | some pc =>
              if fmErase pc v.name = [] then fmErase m.data.children v.parent
              else fmInsert v.parent (fmErase pc v.name) m.data.children) q =
            some qc →
          ∃ qc0, fmGet m.data.children q = some qc0 := by
        intro q qc hq
        split at hq
        · exact ⟨qc, hq⟩
        · rename_i pc hcp
          split at hq
          · rw [fmGet_fmErase] at hq
            split at hq
            · exact absurd hq (by simp)
            · exact ⟨qc, hq⟩
          · rw [fmGet_fmInsert] at hq
            by_cases hqp : q = v.parent
            · rw [hqp]
              exact ⟨pc, hcp⟩
            · rw [if_neg hqp] at hq
              exact ⟨qc, hq⟩
      have hedge1 : ∀ q qc nm j,
          fmGet (match fmGet m.data.children v.parent with
            | none => m.data.children
            | some pc =>
              if fmErase pc v.name = [] then fmErase m.data.children v.parent
              else fmInsert v.parent (fmErase pc v.name) m.data.children) q =
            some qc →
          fmGet qc nm = some j →
          ∃ qc0, fmGet m.data.children q = some qc0 ∧ fmGet qc0 nm = some j ∧
            ¬(q = v.parent ∧ nm = v.name) := by
        intro q qc nm j hq hj
        split at hq
        · rename_i hcp
          refine ⟨qc, hq, hj, ?_⟩
          rintro ⟨hq1, -⟩
          rw [hq1, hcp] at hq
          exact absurd hq (by simp)
        · rename_i pc hcp
          split at hq
          · rw [fmGet_fmErase] at hq
            split at hq
            · exact absurd hq (by simp)
            · rename_i hqp
              exact ⟨qc, hq, hj, fun hand => hqp hand.1⟩
          · rw [fmGet_fmInsert] at hq
            by_cases hqp : q = v.parent
            · rw [if_pos hqp] at hq
              simp only [Option.some.injEq] at hq
              rw [← hq, fmGet_fmErase] at hj
              by_cases hnm : nm = v.name
              · rw [if_pos hnm] at hj
                exact absurd hj (by simp)
              · rw [if_neg hnm] at hj
                exact ⟨pc, hqp ▸ hcp, hj, fun hand => hnm hand.2⟩
            · rw [if_neg hqp] at hq
              exact ⟨qc, hq, hj, fun hand => hqp hand.1⟩
      have hcore : ∀ CH : List (Nat × List (String × Nat)),
          (∀ q qc, fmGet CH q = some qc →
            q ≠ i ∧ ∃ qc0, fmGet m.data.children q = some qc0) →
          (∀ q qc nm j, fmGet CH q = some qc → fmGet qc nm = some j →
            ∃ qc0, fmGet m.data.children q = some qc0 ∧ fmGet qc0 nm = some j ∧
              ¬(q = v.parent ∧ nm = v.name)) →
          MapperWF (T := T)
            ⟨⟨fmErase m.data.inodes i, CH⟩, m.root_inode, m.next_inode⟩ := by
        intro CH hkeys hedges
        constructor
        · obtain ⟨d0, hd0⟩ := hwf.root_rec
          refine ⟨d0, ?_⟩
          simp only [fmGet_fmErase]
          rw [if_neg (fun hc => hine (by exact hc ▸ rfl))]
          exact hd0
        · intro q qc hq
          obtain ⟨hqi, qc0, hq0⟩ := hkeys q qc hq
          obtain ⟨w, hw⟩ := hwf.keys_present q qc0 hq0
          simp only [fmGet_fmErase]
          rw [if_neg hqi]
          exact ⟨w, hw⟩
        · intro q qc nm j hq hj
          obtain ⟨qc0, hq0, hj0, hnot⟩ := hedges q qc nm j hq hj
          have hji : j ≠ i := fun hji => hnot (huniq q qc0 nm hq0 (hji ▸ hj0))
          obtain ⟨w, hw, hwp, hwn⟩ := hwf.edge_rec q qc0 nm j hq0 hj0
          refine ⟨w, ?_, hwp, hwn⟩
          simp only [fmGet_fmErase]
          rw [if_neg hji]
          exact hw
        · intro q qc nm j hq hj
          obtain ⟨qc0, hq0, hj0, _⟩ := hedges q qc nm j hq hj
          exact hwf.edge_ne_root q qc0 nm j hq0 hj0
        · intro j w hj
          simp only [fmGet_fmErase] at hj
          split at hj
          · exact absurd hj (by simp)
          · exact hwf.fresh j w hj
      split at h
      · rename_i hnone
        simp only [Option.some.injEq, Prod.mk.injEq] at h
        refine h.2 ▸ hcore _ ?_ ?_
        · intro q qc hq
          refine ⟨?_, hkeys1 q qc hq⟩
          intro hqi
          rw [hqi, hnone] at hq
          exact absurd hq (by simp)
        · exact hedge1
      · rename_i cs hcs
        split at h
        · exact absurd h (by simp)
        · rename_i m3 hfold
          simp only [Option.some.injEq, Prod.mk.injEq] at h
          refine h.2 ▸ foldRemove_wf hR _ _ _ hfold (hcore _ ?_ ?_)
          · intro q qc hq
            simp only [fmGet_fmErase] at hq
            split at hq
            · exact absurd hq (by simp)
            · rename_i hqi
              exact ⟨hqi, hkeys1 q qc hq⟩
          · intro q qc nm j hq hj
            simp only [fmGet_fmErase] at hq
            split at hq
            · exact absurd hq (by simp)
            · exact hedge1 q qc nm j hq hj

theorem removeAux_wf {T : Type} :
    ∀ fuel : Nat, RemWF (InodeMapper.removeAux (T := T) fuel) := by
  intro fuel
  induction fuel with
  | zero =>
    exact removeStep_wf (fun m i r m' h => absurd h (by simp))
  | succ fuel ih =>
    exact removeStep_wf ih

/-- Every mapper state reachable by public operations is well-formed. -/
theorem reach_wf {T : Type} {m : InodeMapper T} (h : Reach m) : MapperWF m := by
  induction h with
  | new d => exact wf_new d
  | insert_child hr hop ih => exact insert_child_wf hop ih
  | insert_children hr hop ih => exact insert_children_wf hop ih
  | batch_insert hr hop ih => exact batch_insert_wf hop ih
  | rename hr hop ih => exact rename_wf hop ih
  | remove hr hop ih => exact removeAux_wf _ _ _ _ _ hop ih

/-- Counterexample to C2 as stated: the displacement scenario reaches
`rnSt5` (four `insert_child` calls then `rename(2, "x", 3, "y")`), where
the displaced inode 5 is present and non-root, its recorded parent 3 is
present, but parent 3's child index maps 5's recorded name `"y"` to the
moved inode 4 — not to 5. -/
theorem c2_counterexample :
    Reach rnSt5 ∧ fmGet rnSt5.data.inodes 5 = some ⟨3, "y", 0⟩ ∧
    ¬ClaimParentIndexInv rnSt5 := by
  have h1 : Reach rnSt1 :=
    @Reach.insert_child Nat (InodeMapper.new 0) rnSt1 1 "p" (fun _ => 0) 2
      (Reach.new 0) rfl
  have h2 : Reach rnSt2 :=
    @Reach.insert_child Nat rnSt1 rnSt2 1 "q" (fun _ => 0) 3 h1 rfl
  have h3 : Reach rnSt3 :=
    @Reach.insert_child Nat rnSt2 rnSt3 2 "x" (fun _ => 0) 4 h2 rfl
  have h4 : Reach rnSt4 :=
    @Reach.insert_child Nat rnSt3 rnSt4 3 "y" (fun _ => 0) 5 h3 rfl
  have h5 : Reach rnSt5 :=
    @Reach.rename Nat rnSt4 rnSt5 2 "x" 3 "y" none h4 rfl
  refine ⟨h5, by decide, ?_⟩
  intro hinv
  obtain ⟨pv, pc, hpv, hpc, hmap⟩ := hinv 5 ⟨3, "y", 0⟩ (by decide) (by decide)
  have hpc2 : fmGet rnSt5.data.children 3 = some pc := hpc
  rw [show fmGet rnSt5.data.children 3 = some [("y", 4)] by decide] at hpc2
  injection hpc2 with hpc2
  subst hpc2
  exact absurd hmap (by decide)

/-- C2 (amended): in every reachable mapper state, every child-index edge
`(p, name) → i` points at a present, non-root inode whose recorded parent
is `p` (itself present) and whose recorded name is `name` — so the
parent's child index maps `i`'s recorded name back to `i`.  (Displaced
records, which no edge points at, are exempt; the unrestricted claim fails
for them, see the counterexample.) -/
theorem c2_edge_invariant {T : Type} {m : InodeMapper T} (h : Reach m)
    (p : Nat) (pc : List (String × Nat)) (n : String) (i : Nat)
    (hpc : fmGet m.data.children p = some pc) (hi : fmGet pc n = some i) :
    i ≠ ROOT_INODE ∧
    ∃ v pv, fmGet m.data.inodes i = some v ∧ v.parent = p ∧ v.name = n ∧
      fmGet m.data.inodes p = some pv ∧ fmGet pc v.name = some i := by
  have hwf := reach_wf h
  obtain ⟨v, hv, hvp, hvn⟩ := hwf.edge_rec p pc n i hpc hi
  obtain ⟨pv, hpv⟩ := hwf.keys_present p pc hpc
  exact ⟨hwf.edge_ne_root p pc n i hpc hi, v, pv, hv, hvp, hvn, hpv,
    hvn.symm ▸ hi⟩

/-- Witness for C2 (amended): in the reachable displaced state `rnSt5`,
the surviving edge `(3, "y") → 4` satisfies the invariant. -/
theorem c2_edge_invariant_witness :
    (4 : Nat) ≠ ROOT_INODE ∧
    ∃ v pv, fmGet rnSt5.data.inodes 4 = some v ∧ v.parent = 3 ∧ v.name = "y" ∧
      fmGet rnSt5.data.inodes 3 = some pv ∧
      fmGet [("y", (4 : Nat))] v.name = some 4 :=
  c2_edge_invariant
    (@Reach.rename Nat rnSt4 rnSt5 2 "x" 3 "y" none
      (@Reach.insert_child Nat rnSt3 rnSt4 3 "y" (fun _ => 0) 5
        (@Reach.insert_child Nat rnSt2 rnSt3 2 "x" (fun _ => 0) 4
          (@Reach.insert_child Nat rnSt1 rnSt2 1 "q" (fun _ => 0) 3
            (@Reach.insert_child Nat (InodeMapper.new 0) rnSt1 1 "p"
              (fun _ => 0) 2 (Reach.new 0) rfl) rfl) rfl) rfl) rfl)
    3 [("y", 4)] "y" 4 (by decide) (by decide)

/-- Counterexample to C7 as stated: `insert_children(ROOT, [])` on a fresh
mapper (exactly what the dispatcher does when a handler's readdir returns
no entries) reaches a state in which the root has a **present but empty**
child index, violating "present iff non-empty". -/
theorem c7_counterexample :
    Reach emptyIdxSt ∧ fmGet emptyIdxSt.data.children 1 = some [] ∧
    ¬NoEmptyIndex emptyIdxSt := by
  refine ⟨@Reach.insert_children Nat (InodeMapper.new 0) emptyIdxSt 1 [] []
      (Reach.new 0) rfl, by decide, ?_⟩
  intro hne
  exact hne 1 [] (by decide) rfl

/-- C7 (amended): in every mapper state reachable by public operations in
which every `insert_children` call passes a non-empty child list, a
parent's entry in the children map, when present, is non-empty (and absent
entries trivially carry no children), i.e. present iff non-empty. -/
theorem c7_no_empty_index {T : Type} {m : InodeMapper T} (h : ReachNE m) :
    NoEmptyIndex m := by
  induction h with
  | new d =>
    intro q pc hpc
    exact absurd hpc (by simp [InodeMapper.new])
  | insert_child hr hop ih =>
    rename_i m m' p c f i
    simp only [InodeMapper.insert_child] at hop
    split at hop
    · exact absurd hop (by simp)
    · rcases hicu : m.insert_child_unchecked p c f with _ | ⟨i2, m2⟩ <;>
        rw [hicu] at hop
      · exact absurd hop (by simp)
      · simp only [Option.map_some', Option.some.injEq, Except.ok.injEq,
          Prod.mk.injEq] at hop
        exact hop.2 ▸ icu_noEmpty hicu ih
  | insert_children hr hcs hop ih => exact insert_children_noEmpty hop ih hcs
  | batch_insert hr hop ih => exact batch_insert_noEmpty hop ih
  | rename hr hop ih => exact rename_noEmpty hop ih
  | remove hr hop ih => exact removeAux_noEmpty _ _ _ _ _ hop ih

/-- Witness for C7 (amended): the invariant holds at the concrete
reachable state `insert_child(ROOT, "p")` on a fresh mapper. -/
theorem c7_no_empty_index_witness : NoEmptyIndex rnSt1 :=
  c7_no_empty_index (@ReachNE.insert_child Nat (InodeMapper.new 0) rnSt1 1 "p"
    (fun _ => 0) 2 (ReachNE.new 0) rfl)

/-- C9: in an entry-producing dispatch, when the handler succeeded,
`resolver.lookup` assigned `ino` (incrementing its refcount to the
positive value `v.data`), and `post_lookup` fails with `e`, the dispatcher
calls `resolver.forget(ino, 1)` — rolling the refcount back by exactly
one — and replies with the error instead of an entry. -/
theorem c9_post_lookup_rollback (st : CState) (parent : Nat) (name : String)
    (ino : Nat) (st1 : CState) (rid : List String) (e : Nat)
    (postLookup : List String → Except Nat Unit) (v : InodeValue Nat)
    (hl : ComponentsResolver.lookup st parent name true = some (ino, st1))
    (hv : fmGet st1.data.inodes ino = some v) (hpos : 0 < v.data)
    (hr : ComponentsResolver.resolve_id st1 ino = some rid)
    (hp : postLookup rid = Except.error e) :
    ComponentsResolver.forget st1 ino 1 =
      some (st1.setRecord ino ⟨v.parent, v.name, wsub v.data 1⟩) ∧
    handle_fuse_reply_entry st parent name (Except.ok ()) postLookup =
      some (EntryReply.error e,
        st1.setRecord ino ⟨v.parent, v.name, wsub v.data 1⟩) := by
  have hf : ComponentsResolver.forget st1 ino 1 =
      some (st1.setRecord ino ⟨v.parent, v.name, wsub v.data 1⟩) := by
    simp only [ComponentsResolver.forget, hv]
    rw [if_pos hpos]
  refine ⟨hf, ?_⟩
  simp only [handle_fuse_reply_entry, hl, hr, hp, hf]

/-- Witness for C9: fresh resolver, `lookup(ROOT, "a", (), true)` assigns
inode 2 at refcount 1; a failing `post_lookup` rolls it back to 0 and the
reply is the error. -/
theorem c9_witness :
    ComponentsResolver.forget oneSt 2 1 =
      some (oneSt.setRecord 2 ⟨1, "a", wsub 1 1⟩) ∧
    handle_fuse_reply_entry ComponentsResolver.new 1 "a" (Except.ok ())
        (fun _ => Except.error 13) =
      some (EntryReply.error 13, oneSt.setRecord 2 ⟨1, "a", wsub 1 1⟩) :=
  c9_post_lookup_rollback ComponentsResolver.new 1 "a" 2 oneSt ["a"] 13
    (fun _ => Except.error 13) ⟨1, "a", 1⟩ (by decide) (by decide) (by decide)
    (by decide) rfl
